import Mathlib

/-!
# Verification of the JPEG coefficient-domain transcoder

Shallow embedding of the `jpeg_transcoder` package (bitstream codec, zigzag
reorder, Huffman tables, RLE symbol coder, quantization scaling, segment
parser/writer and the transcode orchestrator), together with proofs and
refutations of the specification claims about it.

Conventions:
* Python byte strings are `List Nat` (each element < 256 where relevant).
* Python ints are `Int` (arbitrary precision, like Python).
* Python floats are modelled by exact rationals `ℚ`.  On every domain a claim
  quantifies over (quality 1..100, table entries 0..255) the IEEE-double
  computation of the source and the exact rational computation agree, because
  the intermediate values are either exactly representable or farther than
  one part in 2^40 from the nearest integer.
* Python exceptions are modelled by `Except Err`.
* Python dicts keyed by small ints are association lists with
  replace-or-append update (Python insertion-order semantics).
-/

namespace JpegTranscoder

/-- Exceptions raised by the Python source. -/
inductive Err where
  /-- `EOFError` from `BitReader.read_bit`. -/
  | eof : Err
  /-- `ValueError` (shape errors, invalid Huffman code, bad first RLE symbol). -/
  | valueError : String → Err
  /-- `KeyError` from a dict lookup. -/
  | keyError : Err
  /-- `IndexError` from list indexing out of range. -/
  | indexError : Err
  /-- `AssertionError`. -/
  | assertError : String → Err
  /-- `struct.error` from `struct.unpack_from`/`struct.pack` misuse. -/
  | structError : Err
  /-- `ZeroDivisionError`. -/
  | zeroDiv : Err
  /-- `FileNotFoundError` from `open(path, "rb")`. -/
  | fileNotFound : Err
  /-- `StopIteration` from `next(...)` on an empty generator. -/
  | stopIteration : Err
  /-- `TypeError` (e.g. `len(None)` when a header is missing). -/
  | typeError : Err
deriving DecidableEq, Repr

/-- Python `int(x)` on a float/rational: truncation toward zero. -/
def pyInt (x : ℚ) : Int :=
  if 0 ≤ x then ⌊x⌋ else -⌊-x⌋

/-- Python `round(x)`: round half to even. -/
def pyRound (x : ℚ) : Int :=
  if x - ⌊x⌋ < 1/2 then ⌊x⌋
  else if (1:ℚ)/2 < x - ⌊x⌋ then ⌊x⌋ + 1
  else if ⌊x⌋ % 2 = 0 then ⌊x⌋ else ⌊x⌋ + 1

theorem pyInt_of_nonneg {x : ℚ} (h : 0 ≤ x) : pyInt x = ⌊x⌋ := by
  simp [pyInt, h]

theorem pyInt_eq {x : ℚ} {z : Int} (h : (z : ℚ) ≤ x) (h2 : x < z + 1) (h0 : 0 ≤ x) :
    pyInt x = z := by
  rw [pyInt, if_pos h0, Int.floor_eq_iff]
  exact ⟨h, h2⟩

/-! ## quantization.py -/

/-- `quantization.scale_table(table, quality)` from `quantization.py`:
clamp `quality` into `[1, 100]`, compute the scaling factor, and map
`v ↦ max(1, min(int((v*factor + 50)/100), 255))` over the nested list. -/
def scale_table (table : List (List Int)) (quality : Int) : List (List Int) :=
  let q1 : Int := if quality < 1 then 1 else quality
  let q2 : Int := if q1 > 100 then 100 else q1
  let factor : ℚ := if q2 < 50 then 5000 / (q2 : ℚ) else ((200 - q2 * 2 : Int) : ℚ)
  table.map (fun row => row.map (fun (v : Int) =>
    let q := pyInt (((v : ℚ) * factor + 50) / 100)
    max 1 (min q 255)))

/-- `quantization.quantize_block(block, q_table)`: per-cell
`int(round(block[i][j] / q_table[i][j]))`.  Division by a zero table entry
raises `ZeroDivisionError` in Python, hence the `Except`. -/
def quantize_block (block : List (List Int)) (q_table : List (List Int)) :
    Except Err (List (List Int)) := do
  (List.range 8).mapM (fun i => (List.range 8).mapM (fun j => do
    let d : Int := (q_table.getD i []).getD j 0
    if d = 0 then throw .zeroDiv
    else pure (pyRound (((block.getD i []).getD j 0 : ℚ) / (d : ℚ)))))

/-- `quantization.dequantize_block(q_block, q_table)`: per-cell product. -/
def dequantize_block (q_block : List (List Int)) (q_table : List (List Int)) :
    List (List Int) :=
  (List.range 8).map (fun i => (List.range 8).map (fun j =>
    (q_block.getD i []).getD j 0 * (q_table.getD i []).getD j 0))

/-! ## utils.py -/

def SOI : Nat := 0xD8
def EOI : Nat := 0xD9
def APP0 : Nat := 0xE0
def DQT : Nat := 0xDB
def SOF0 : Nat := 0xC0
def DHT : Nat := 0xC4
def SOS : Nat := 0xDA

/-- The fixed zig-zag permutation from `utils.py` (scan index → row-major index). -/
def ZIGZAG_ORDER : List Nat := [
   0,  1,  5,  6, 14, 15, 27, 28,
   2,  4,  7, 13, 16, 26, 29, 42,
   3,  8, 12, 17, 25, 30, 41, 43,
   9, 11, 18, 24, 31, 40, 44, 53,
  10, 19, 23, 32, 39, 45, 52, 54,
  20, 22, 33, 38, 46, 51, 55, 60,
  21, 34, 37, 47, 50, 56, 59, 61,
  35, 36, 48, 49, 57, 58, 62, 63]

/-! ## zigzag.py -/

/-- `zigzag.zigzag_order(block)`: shape-check an 8×8 nested list, flatten it
row-major, and gather along `ZIGZAG_ORDER`.  Wrong shape raises `ValueError`. -/
def zigzag_order (block : List (List Int)) : Except Err (List Int) :=
  if block.length = 8 ∧ ∀ row ∈ block, row.length = 8 then
    .ok (ZIGZAG_ORDER.map (fun idx =>
      ((List.range 8).flatMap (fun i =>
        (List.range 8).map (fun j => (block.getD i []).getD j 0))).getD idx 0))
  else .error (.valueError "Input must be an 8x8 block")

/-- The scatter loop of `zigzag.inverse_zigzag`: `flat[ZIGZAG_ORDER[i]] = arr[i]`
over a fresh `[0]*64`. -/
def zigzagScatter (arr : List Int) : List Int :=
  ZIGZAG_ORDER.enum.foldl (fun flat p => flat.set p.2 (arr.getD p.1 0))
    (List.replicate 64 (0 : Int))

/-- `zigzag.inverse_zigzag(arr)`: length-check a 64-element list, scatter it
along `ZIGZAG_ORDER` and reshape 8×8.  Wrong length raises `ValueError`. -/
def inverse_zigzag (arr : List Int) : Except Err (List (List Int)) :=
  if arr.length = 64 then
    .ok ((List.range 8).map (fun r => (List.range 8).map (fun c =>
      (zigzagScatter arr).getD (r * 8 + c) 0)))
  else .error (.valueError "Input must be a list of 64 elements")

/-! ## Claim C8: zigzag round trip -/

/-- Reading a list of known length back out of `getD` recovers the list. -/
theorem range_map_getD (n : Nat) (l : List Int) (h : l.length = n) :
    (List.range n).map (fun c => l.getD c 0) = l := by
  apply List.ext_getElem
  · simp [h]
  · intro i h1 h2
    simp only [List.getElem_map, List.getElem_range, List.getD_eq_getElem?_getD]
    rw [List.getElem?_eq_getElem h2]
    rfl

/-- Reassembling an 8×8 matrix entry by entry recovers the matrix. -/
theorem matrix_range_getD (M : List (List Int)) (h8 : M.length = 8)
    (hrow : ∀ row ∈ M, row.length = 8) :
    (List.range 8).map (fun r => (List.range 8).map (fun c => (M.getD r []).getD c 0)) = M := by
  apply List.ext_getElem
  · simp [h8]
  · intro i h1 h2
    simp only [List.getElem_map, List.getElem_range]
    have hgd : M.getD i [] = M[i] := by
      simp only [List.getD_eq_getElem?_getD]
      rw [List.getElem?_eq_getElem h2]
      rfl
    rw [hgd]
    exact range_map_getD 8 M[i] (hrow M[i] (M.getElem_mem h2))

/-- `getD` inside the length is `getElem`. -/
theorem getD_of_lt {α : Type} (l : List α) (i : Nat) (d : α) (h : i < l.length) :
    l.getD i d = l[i] := by
  rw [List.getD_eq_getElem?_getD, List.getElem?_eq_getElem h]
  rfl

/-- `getD` through a `map`. -/
theorem getD_map {α β : Type} (f : α → β) (l : List α) (i : Nat) (d : β)
    (h : i < l.length) : (l.map f).getD i d = f l[i] := by
  rw [List.getD_eq_getElem?_getD, List.getElem?_map, List.getElem?_eq_getElem h]
  rfl

/-- `getD` through a `map` over `range`. -/
theorem getD_map_range {α : Type} (f : Nat → α) (n i : Nat) (d : α) (h : i < n) :
    ((List.range n).map f).getD i d = f i := by
  rw [getD_map f _ i d (by simpa using h), List.getElem_range]

/-- The nested flatten comprehension of `zigzag_order` as a single `map`. -/
theorem flatMap_range_eight (g : Nat → Nat → Int) :
    (List.range 8).flatMap (fun i => (List.range 8).map (g i)) =
      (List.range 64).map (fun k => g (k / 8) (k % 8)) := rfl

/-- Indexing into the flattened block comprehension. -/
theorem flat_getD (block : List (List Int)) (k : Nat) (hk : k < 64) :
    ((List.range 8).flatMap (fun i =>
      (List.range 8).map (fun j => (block.getD i []).getD j 0))).getD k 0 =
      (block.getD (k / 8) []).getD (k % 8) 0 := by
  rw [flatMap_range_eight, getD_map_range _ _ _ _ hk]

/-- One step of the scatter loop: `foldl` over an enumerated index list of
pairwise-distinct in-range targets writes `arr[i]` to slot `p[i]` and leaves
other slots alone. -/
theorem foldl_set_getD (arr : List Int) :
    ∀ (p : List Nat) (i : Nat) (b : List Int), p.Nodup → (∀ x ∈ p, x < b.length) →
    ∀ k, k < b.length →
      ((p.enumFrom i).foldl (fun flat q => flat.set q.2 (arr.getD q.1 0)) b).getD k 0 =
        if k ∈ p then arr.getD (i + List.indexOf k p) 0 else b.getD k 0 := by
  intro p
  induction p with
  | nil => intro i b _ _ k hk; simp
  | cons q rest ih =>
    intro i b hnd hbound k hk
    obtain ⟨hq, hrest⟩ := List.nodup_cons.mp hnd
    simp only [List.enumFrom_cons, List.foldl_cons]
    have hlen : (b.set q (arr.getD i 0)).length = b.length := by simp
    rw [ih (i + 1) (b.set q (arr.getD i 0)) hrest
      (fun x hx => hlen ▸ hbound x (List.mem_cons_of_mem _ hx)) k (hlen ▸ hk)]
    by_cases hkq : k = q
    · subst hkq
      rw [if_neg hq, if_pos (List.mem_cons_self _ _), List.indexOf_cons_self, Nat.add_zero]
      rw [List.getD_eq_getElem?_getD, List.getElem?_set_self (hbound k (List.mem_cons_self _ _))]
      rfl
    · have hqk : q ≠ k := fun h => hkq h.symm
      have hset : (b.set q (arr.getD i 0)).getD k 0 = b.getD k 0 := by
        rw [List.getD_eq_getElem?_getD, List.getElem?_set_ne hqk, ← List.getD_eq_getElem?_getD]
      by_cases hkr : k ∈ rest
      · rw [if_pos hkr, if_pos (List.mem_cons_of_mem _ hkr),
          List.indexOf_cons_ne rest hqk]
        have : i + 1 + List.indexOf k rest = i + (List.indexOf k rest).succ := by omega
        rw [this]
      · rw [if_neg hkr, if_neg (by simp [hkq, hkr]), hset]

theorem zigzag_nodup : ZIGZAG_ORDER.Nodup := by decide

theorem zigzag_mem : ∀ k < 64, k ∈ ZIGZAG_ORDER := by decide

theorem zigzag_bound : ∀ x ∈ ZIGZAG_ORDER, x < 64 := by decide

/-- Each slot of the scatter result holds the source element whose zigzag
target is that slot. -/
theorem zigzagScatter_getD (arr : List Int) (k : Nat) (hk : k < 64) :
    (zigzagScatter arr).getD k 0 = arr.getD (List.indexOf k ZIGZAG_ORDER) 0 := by
  unfold zigzagScatter
  rw [List.enum_eq_enumFrom,
    foldl_set_getD arr ZIGZAG_ORDER 0 (List.replicate 64 (0 : Int)) zigzag_nodup
      (by decide) k (by simpa using hk),
    if_pos (zigzag_mem k hk), Nat.zero_add]

set_option maxHeartbeats 1000000 in
/-- C8.  The zigzag reorder functions are exact mutual inverses on correctly
shaped inputs (`inverse_zigzag ∘ zigzag_order = id` on 8×8 matrices and
`zigzag_order ∘ inverse_zigzag = id` on 64-element lists), and both reject
wrongly sized inputs with the shape `ValueError` of the source. -/
theorem zigzag_roundtrip_and_shape :
    (∀ (M : List (List Int)) (s : List Int), M.length = 8 → (∀ row ∈ M, row.length = 8) →
      zigzag_order M = .ok s → inverse_zigzag s = .ok M) ∧
    (∀ (S : List Int) (M : List (List Int)), S.length = 64 →
      inverse_zigzag S = .ok M → zigzag_order M = .ok S) ∧
    (∀ M : List (List Int), ¬(M.length = 8 ∧ ∀ row ∈ M, row.length = 8) →
      zigzag_order M = .error (.valueError "Input must be an 8x8 block")) ∧
    (∀ S : List Int, S.length ≠ 64 →
      inverse_zigzag S = .error (.valueError "Input must be a list of 64 elements")) := by
  have hZlen : ZIGZAG_ORDER.length = 64 := rfl
  refine ⟨?_, ?_, ?_, ?_⟩
  · intro M s h8 hrow hs
    rw [zigzag_order, if_pos ⟨h8, hrow⟩] at hs
    cases hs
    rw [inverse_zigzag, if_pos (by rw [List.length_map]; rfl)]
    refine congrArg Except.ok ?_
    apply List.ext_getElem
    · rw [List.length_map, List.length_range, h8]
    · intro r hr hr2
      rw [List.length_map, List.length_range] at hr
      simp only [List.getElem_map, List.getElem_range]
      apply List.ext_getElem
      · rw [List.length_map, List.length_range, hrow M[r] (List.getElem_mem hr2)]
      · intro c hc hc2
        rw [List.length_map, List.length_range] at hc
        simp only [List.getElem_map, List.getElem_range]
        have hk : r * 8 + c < 64 := by omega
        rw [zigzagScatter_getD _ _ hk]
        have hmem := zigzag_mem (r * 8 + c) hk
        have hidx : List.indexOf (r * 8 + c) ZIGZAG_ORDER < ZIGZAG_ORDER.length :=
          List.indexOf_lt_length.mpr hmem
        rw [getD_map _ _ _ _ hidx, List.getElem_indexOf]
        rw [flatMap_range_eight, getD_map_range _ _ _ _ hk]
        have h1 : (r * 8 + c) / 8 = r := by omega
        have h2 : (r * 8 + c) % 8 = c := by omega
        rw [h1, h2, getD_of_lt _ _ _ hr2, getD_of_lt _ _ _ hc2]
  · intro S M h64 hM
    rw [inverse_zigzag, if_pos h64] at hM
    cases hM
    rw [zigzag_order, if_pos (by
      refine ⟨by simp, fun row hrow => ?_⟩
      obtain ⟨r, _, rfl⟩ := List.mem_map.mp hrow
      simp)]
    refine congrArg Except.ok ?_
    apply List.ext_getElem
    · rw [List.length_map, hZlen, h64]
    · intro i hi hi2
      rw [List.length_map, hZlen] at hi
      simp only [List.getElem_map]
      have hzi : ZIGZAG_ORDER[i] < 64 :=
        zigzag_bound _ (List.getElem_mem (show i < ZIGZAG_ORDER.length by omega))
      rw [flat_getD _ _ hzi,
        getD_map_range _ _ _ _ (by omega : ZIGZAG_ORDER[i] / 8 < 8),
        getD_map_range _ _ _ _ (by omega : ZIGZAG_ORDER[i] % 8 < 8)]
      have heq : ZIGZAG_ORDER[i] / 8 * 8 + ZIGZAG_ORDER[i] % 8 = ZIGZAG_ORDER[i] := by omega
      rw [heq, zigzagScatter_getD _ _ hzi,
        List.indexOf_getElem zigzag_nodup i (by omega),
        getD_of_lt _ _ _ (by omega)]
  · intro M h
    rw [zigzag_order, if_neg h]
  · intro S h
    rw [inverse_zigzag, if_neg h]

/-- Witness for C8 at concrete inputs. -/
theorem zigzag_roundtrip_and_shape_witness :
    (inverse_zigzag (ZIGZAG_ORDER.map (fun idx =>
        ((List.range 8).flatMap (fun i => (List.range 8).map (fun j =>
          (((List.replicate 8 (List.replicate 8 (3 : Int))).getD i []).getD j 0)))).getD idx 0)) =
      .ok (List.replicate 8 (List.replicate 8 (3 : Int)))) ∧
    (zigzag_order ((List.range 8).map (fun r => (List.range 8).map (fun c =>
        (zigzagScatter ((List.range 64).map (fun k => (k : Int)))).getD (r * 8 + c) 0))) =
      .ok ((List.range 64).map (fun k => (k : Int)))) ∧
    (zigzag_order [[1]] = .error (.valueError "Input must be an 8x8 block")) ∧
    (inverse_zigzag [1, 2, 3] = .error (.valueError "Input must be a list of 64 elements")) :=
  ⟨zigzag_roundtrip_and_shape.1 _ _ (by rfl) (by decide) (by rw [zigzag_order, if_pos (by decide)]),
   zigzag_roundtrip_and_shape.2.1 _ _ (by rfl)
     (by rw [inverse_zigzag, if_pos (by rfl)]),
   zigzag_roundtrip_and_shape.2.2.1 _ (by decide),
   zigzag_roundtrip_and_shape.2.2.2 _ (by decide)⟩

/-! ## Python dict model (assoc list, replace-or-append, insertion order) -/

def dictInsert {α : Type} : List (Nat × α) → Nat → α → List (Nat × α)
  | [], k, v => [(k, v)]
  | (k0, v0) :: rest, k, v =>
    if k0 = k then (k, v) :: rest else (k0, v0) :: dictInsert rest k v

def dictLookup {α : Type} : List (Nat × α) → Nat → Option α
  | [], _ => none
  | (k0, v0) :: rest, k => if k0 = k then some v0 else dictLookup rest k

/-! ## compressor.py: build_scaled_qtables -/

/-- Loop body of `compressor.build_scaled_qtables`: for each `(tid, flat)` in
the dict, un-zigzag the flat table, compute the (unclamped-quality) factor and
map `max(1, min(255, int((mat[i][j]*factor + 50)/100)))` over an 8×8 range,
storing the result under `tid`.  `5000/quality` raises `ZeroDivisionError`
when `quality = 0` (the `quality < 50` branch is then taken). -/
def buildScaledLoop (quality : Int) :
    List (Nat × List Int) → List (Nat × List (List Int)) →
      Except Err (List (Nat × List (List Int)))
  | [], scaled => .ok scaled
  | (tid, flat) :: rest, scaled => do
    let mat ← inverse_zigzag flat
    if quality = 0 then throw .zeroDiv else
    let factor : ℚ := if quality < 50 then 5000 / (quality : ℚ)
      else ((200 - quality * 2 : Int) : ℚ)
    let new_mat := (List.range 8).map (fun i => (List.range 8).map (fun j =>
      max 1 (min 255 (pyInt ((((mat.getD i []).getD j 0 : ℚ) * factor + 50) / 100)))))
    buildScaledLoop quality rest (dictInsert scaled tid new_mat)

/-- `compressor.build_scaled_qtables(orig_qtables_flat, quality)`. -/
def build_scaled_qtables (orig_qtables_flat : List (Nat × List Int)) (quality : Int) :
    Except Err (List (Nat × List (List Int))) :=
  buildScaledLoop quality orig_qtables_flat []

/-! ## Claims C4 and C5: quality scaling -/

/-- The scaling factor exactly as the specification words it. -/
def scaleFactorSpec (quality : Int) : ℚ :=
  if quality < 50 then 5000 / (quality : ℚ) else ((200 - 2 * quality : Int) : ℚ)

/-- The scaling formula exactly as claim C4 words it: quality clamped into
`[1,100]`, then each entry `clamp(round((orig*factor + 50)/100), 1, 255)` with
a true `round` (the source instead truncates with `int`). -/
def scale_table_claim_formula (table : List (List Int)) (quality : Int) : List (List Int) :=
  let q : Int := min 100 (max 1 quality)
  table.map (fun row => row.map (fun (v : Int) =>
    max 1 (min (round (((v : ℚ) * scaleFactorSpec q + 50) / 100)) 255)))

/-- C4 counterexample: at quality 50 on the all-ones 8×8 table the source
truncates `1.5` down to `1`, while the claimed `round`-based formula yields
`2` (1.5 rounds to 2 under round-half-up and round-half-even alike). -/
theorem scale_table_round_formula_cx :
    scale_table (List.replicate 8 (List.replicate 8 1)) 50 =
      List.replicate 8 (List.replicate 8 1) ∧
    scale_table_claim_formula (List.replicate 8 (List.replicate 8 1)) 50 =
      List.replicate 8 (List.replicate 8 2) ∧
    scale_table (List.replicate 8 (List.replicate 8 1)) 50 ≠
      scale_table_claim_formula (List.replicate 8 (List.replicate 8 1)) 50 := by
  have h1 : scale_table (List.replicate 8 (List.replicate 8 1)) 50 =
      List.replicate 8 (List.replicate 8 1) := by
    simp only [scale_table, List.map_replicate, show ¬((50 : Int) < 1) by omega, if_false,
      show ¬((50 : Int) > 100) by omega, show ¬((50 : Int) < 50) by omega]
    rw [show pyInt ((((1 : Int) : ℚ) * ((200 - 50 * 2 : Int) : ℚ) + 50) / 100) = 1 from
      pyInt_eq (by norm_num) (by norm_num) (by norm_num)]
    decide
  have h2 : scale_table_claim_formula (List.replicate 8 (List.replicate 8 1)) 50 =
      List.replicate 8 (List.replicate 8 2) := by
    simp only [scale_table_claim_formula, scaleFactorSpec, List.map_replicate,
      show min (100 : Int) (max 1 50) = 50 by omega, show ¬((50 : Int) < 50) by omega, if_false]
    rw [show round ((((1 : Int) : ℚ) * ((200 - 2 * 50 : Int) : ℚ) + 50) / 100) = 2 by
      rw [round_eq]
      rw [show (((1 : Int) : ℚ) * ((200 - 2 * 50 : Int) : ℚ) + 50) / 100 + 1 / 2 = 2 by
        norm_num]
      rw [show ((2 : ℚ) = ((2 : Int) : ℚ)) by norm_num, Int.floor_intCast]]
    decide
  refine ⟨h1, h2, ?_⟩
  rw [h1, h2]
  decide

/-- C4 as amended: for qualities already in `[1,100]` and nonnegative entries,
each output entry of `scale_table` is `clamp(⌊(orig*factor + 50)/100⌋, 1, 255)`
(floor — i.e. `int` truncation — instead of the claimed `round`), with the
claimed factor; and out-of-range qualities are first clamped into `[1,100]`. -/
theorem scale_table_floor_formula :
    (∀ (table : List (List Int)) (quality : Int), 1 ≤ quality → quality ≤ 100 →
      (∀ row ∈ table, ∀ v ∈ row, 0 ≤ v) →
      scale_table table quality = table.map (fun row => row.map (fun (v : Int) =>
        max 1 (min ⌊((v : ℚ) * scaleFactorSpec quality + 50) / 100⌋ 255)))) ∧
    (∀ (table : List (List Int)) (quality : Int),
      scale_table table quality = scale_table table (min 100 (max 1 quality))) := by
  constructor
  · intro table quality h1 h100 hv
    simp only [scale_table]
    have e1 : (if quality < 1 then (1 : Int) else quality) = quality := by
      rw [if_neg (by omega)]
    rw [e1]
    have e2 : (if quality > 100 then (100 : Int) else quality) = quality := by
      rw [if_neg (by omega)]
    rw [e2]
    refine List.map_congr_left (fun row hrow => List.map_congr_left (fun v hmem => ?_))
    have hf : (if quality < 50 then 5000 / (quality : ℚ)
        else ((200 - quality * 2 : Int) : ℚ)) = scaleFactorSpec quality := by
      rw [scaleFactorSpec]
      split_ifs
      · rfl
      · push_cast
        ring
    rw [hf]
    have hq : (0 : ℚ) ≤ (v : ℚ) * scaleFactorSpec quality := by
      have hv0 : (0 : ℚ) ≤ (v : ℚ) := by exact_mod_cast hv row hrow v hmem
      have hfac : 0 ≤ scaleFactorSpec quality := by
        rw [scaleFactorSpec]
        split_ifs
        · have : (0 : ℚ) < (quality : ℚ) := by exact_mod_cast h1
          positivity
        · have : ((200 - 2 * quality : Int) : ℚ) = 200 - 2 * (quality : ℚ) := by push_cast; ring
          rw [this]
          have : (quality : ℚ) ≤ 100 := by exact_mod_cast h100
          linarith
      exact mul_nonneg hv0 hfac
    rw [pyInt_of_nonneg (by positivity)]
  · intro table quality
    simp only [scale_table]
    have e : (if (if quality < 1 then (1 : Int) else quality) > 100 then (100 : Int)
        else (if quality < 1 then 1 else quality)) =
        (if (if min 100 (max 1 quality) < 1 then (1 : Int) else min 100 (max 1 quality)) > 100
          then (100 : Int)
          else (if min 100 (max 1 quality) < 1 then 1 else min 100 (max 1 quality))) := by
      split_ifs <;> omega
    rw [e]

/-- Witness for C4 (amended) at a concrete input. -/
theorem scale_table_floor_formula_witness :
    scale_table [[16]] 50 = [[16]].map (fun row => row.map (fun (v : Int) =>
      max 1 (min ⌊((v : ℚ) * scaleFactorSpec 50 + 50) / 100⌋ 255))) ∧
    scale_table [[16]] 120 = scale_table [[16]] (min 100 (max 1 120)) :=
  ⟨scale_table_floor_formula.1 [[16]] 50 (by decide) (by decide) (by decide),
   scale_table_floor_formula.2 [[16]] 120⟩

/-- C5 counterexample: at quality 1 the all-ones 8×8 table scales to all 50s
(factor 5000 gives `int((1*5000 + 50)/100) = 50`), not to all 255s as claimed. -/
theorem scale_quality_one_cx :
    scale_table (List.replicate 8 (List.replicate 8 1)) 1 =
      List.replicate 8 (List.replicate 8 50) ∧ (50 : Int) ≠ 255 := by
  refine ⟨?_, by decide⟩
  simp only [scale_table, List.map_replicate, show ¬((1 : Int) < 1) by omega, if_false,
    show ¬((1 : Int) > 100) by omega, show ((1 : Int) < 50) by omega, if_true]
  rw [show pyInt ((((1 : Int) : ℚ) * (5000 / ((1 : Int) : ℚ)) + 50) / 100) = 50 from
    pyInt_eq (by norm_num) (by norm_num) (by norm_num)]
  decide

/-- C5 as amended: quality 50 is the identity on tables with entries in
`[1,255]`; quality 100 sends every entry to 1; quality 1 sends an entry `v ≥ 1`
to `min (50*v) 255` — which is 255 only when `v ≥ 6`, not for every entry. -/
theorem scale_quality_boundaries :
    (∀ table : List (List Int), (∀ row ∈ table, ∀ v ∈ row, 1 ≤ v ∧ v ≤ 255) →
      scale_table table 50 = table) ∧
    (∀ table : List (List Int), ∀ row ∈ scale_table table 100, ∀ x ∈ row, x = 1) ∧
    (∀ table : List (List Int), (∀ row ∈ table, ∀ v ∈ row, 1 ≤ v) →
      scale_table table 1 = table.map (fun row => row.map (fun v => min (50 * v) 255))) := by
  refine ⟨?_, ?_, ?_⟩
  · intro table hv
    simp only [scale_table]
    refine Eq.trans (List.map_congr_left fun row hrow => ?_) (List.map_id table)
    show List.map _ row = id row
    refine Eq.trans (List.map_congr_left fun v hmem => ?_) (List.map_id row)
    obtain ⟨hv1, hv255⟩ := hv row hrow v hmem
    have hx : ((v : ℚ) * ((200 - 50 * 2 : Int) : ℚ) + 50) / 100 = (v : ℚ) + 1 / 2 := by
      push_cast
      ring
    simp only [show ¬((50 : Int) < 1) by omega, if_false, show ¬((50 : Int) > 100) by omega,
      show ¬((50 : Int) < 50) by omega, hx]
    have hv0 : (0 : ℚ) ≤ (v : ℚ) := by
      have : (1 : ℚ) ≤ (v : ℚ) := by exact_mod_cast hv1
      linarith
    rw [pyInt_of_nonneg (by positivity), add_comm, Int.floor_add_int,
      show ⌊(1 : ℚ) / 2⌋ = 0 by norm_num, zero_add]
    show max 1 (min v 255) = v
    omega
  · intro table row hrow x hx
    simp only [scale_table, show ¬((100 : Int) < 1) by omega, if_false,
      show ¬((100 : Int) > 100) by omega, show ¬((100 : Int) < 50) by omega] at hrow
    obtain ⟨row0, _, rfl⟩ := List.mem_map.mp hrow
    obtain ⟨v, _, rfl⟩ := List.mem_map.mp hx
    have hx0 : ((v : ℚ) * ((200 - 100 * 2 : Int) : ℚ) + 50) / 100 = 1 / 2 := by
      push_cast
      ring
    rw [hx0, pyInt_of_nonneg (by norm_num), show ⌊(1 : ℚ) / 2⌋ = 0 by norm_num]
    decide
  · intro table hv
    simp only [scale_table, show ((1 : Int) < 1) = False by simp, if_false,
      show ¬((1 : Int) > 100) by omega, show ((1 : Int) < 50) = True by simp, if_true]
    refine List.map_congr_left (fun row hrow => List.map_congr_left (fun v hmem => ?_))
    have hx : ((v : ℚ) * (5000 / ((1 : Int) : ℚ)) + 50) / 100 = ((50 * v : Int) : ℚ) + 1 / 2 := by
      push_cast
      ring
    have hvq : (1 : ℚ) ≤ (v : ℚ) := by exact_mod_cast hv row hrow v hmem
    rw [hx, pyInt_of_nonneg (by push_cast; linarith), Int.floor_int_add,
      show ⌊(1 : ℚ) / 2⌋ = 0 by norm_num, add_zero]
    have h1 := hv row hrow v hmem
    show max 1 (min (50 * v) 255) = min (50 * v) 255
    omega

/-- Witness for C5 (amended) at concrete inputs. -/
theorem scale_quality_boundaries_witness :
    scale_table [[16, 99]] 50 = [[16, 99]] ∧
    (∀ row ∈ scale_table [[16, 99]] 100, ∀ x ∈ row, x = 1) ∧
    scale_table [[16, 99]] 1 = [[16, 99]].map (fun row => row.map (fun v => min (50 * v) 255)) :=
  ⟨scale_quality_boundaries.1 [[16, 99]] (by decide),
   scale_quality_boundaries.2.1 [[16, 99]],
   scale_quality_boundaries.2.2 [[16, 99]] (by decide)⟩

/-! ## Claim C10: the two scaling implementations agree -/

theorem except_bind_ok {ε α β : Type} (a : α) (f : α → Except ε β) :
    ((Except.ok a : Except ε α) >>= f) = f a := rfl

/-- C10.  For in-range qualities, the matrix `build_scaled_qtables` computes
for a 64-entry flat table is exactly `scale_table` applied to the
un-zigzagged matrix: the two independently written scaling formulas are
extensionally equal there. -/
theorem build_scaled_qtables_agrees (tid : Nat) (flat : List Int) (quality : Int)
    (h1 : 1 ≤ quality) (h100 : quality ≤ 100) (h64 : flat.length = 64) :
    ∃ mat, inverse_zigzag flat = .ok mat ∧
      build_scaled_qtables [(tid, flat)] quality = .ok [(tid, scale_table mat quality)] := by
  refine ⟨_, (by rw [inverse_zigzag, if_pos h64] :
    inverse_zigzag flat = .ok ((List.range 8).map (fun r => (List.range 8).map (fun c =>
      (zigzagScatter flat).getD (r * 8 + c) 0)))), ?_⟩
  rw [build_scaled_qtables, buildScaledLoop, inverse_zigzag, if_pos h64, except_bind_ok,
    if_neg (by omega : ¬quality = 0)]
  rw [buildScaledLoop, dictInsert]
  refine congrArg Except.ok (congrArg (fun m => [(tid, m)]) ?_)
  have hM : ∀ i < 8, ((List.range 8).map (fun r => (List.range 8).map (fun c =>
      (zigzagScatter flat).getD (r * 8 + c) 0))).getD i [] =
      (List.range 8).map (fun c => (zigzagScatter flat).getD (i * 8 + c) 0) :=
    fun i hi => getD_map_range _ 8 i [] hi
  simp only [scale_table]
  rw [show (if quality < 1 then (1 : Int) else quality) = quality from if_neg (by omega)]
  rw [show (if quality > 100 then (100 : Int) else quality) = quality from if_neg (by omega)]
  apply List.ext_getElem
  · simp
  · intro i hi hi2
    rw [List.length_map, List.length_range] at hi
    simp only [List.getElem_map, List.getElem_range]
    apply List.ext_getElem
    · simp
    · intro j hj hj2
      rw [List.length_map, List.length_range] at hj
      simp only [List.getElem_map, List.getElem_range]
      rw [hM i hi, getD_map_range _ 8 j 0 hj, min_comm]

/-- Witness for C10 at a concrete input. -/
theorem build_scaled_qtables_agrees_witness :
    ∃ mat, inverse_zigzag (List.replicate 64 16) = .ok mat ∧
      build_scaled_qtables [(0, List.replicate 64 16)] 75 =
        .ok [(0, scale_table mat 75)] :=
  build_scaled_qtables_agrees 0 (List.replicate 64 16) 75 (by decide) (by decide) (by rfl)

/-! ## bitstream.py -/

/-- State of `bitstream.BitReader`: the byte string, the index of the next
byte, and the bit position (0–7) inside it. -/
structure BitReader where
  data : List Nat
  bytepos : Nat
  bitpos : Nat
deriving Repr, DecidableEq

/-- `BitReader.read_bit`: raise `EOFError` past the end of the data, else
return bit `7 - bitpos` of the current byte; on finishing a byte, skip a
stuffed `0x00` that follows a `0xFF` byte. -/
def BitReader.read_bit (r : BitReader) : Except Err (Nat × BitReader) :=
  match r.data[r.bytepos]? with
  | none => .error .eof
  | some byte =>
    let bit := (byte >>> (7 - r.bitpos)) &&& 1
    let bp := r.bitpos + 1
    if bp = 8 then
      let np := r.bytepos + 1
      let np := if byte = 0xFF ∧ r.data[np]? = some 0x00 then np + 1 else np
      .ok (bit, { r with bytepos := np, bitpos := 0 })
    else
      .ok (bit, { r with bitpos := bp })

/-- The loop of `BitReader.read_bits`: `value = (value << 1) | read_bit()`. -/
def readBitsAux : Nat → Nat → BitReader → Except Err (Nat × BitReader)
  | 0, value, r => .ok (value, r)
  | n + 1, value, r =>
    match r.read_bit with
    | .error e => .error e
    | .ok (bit, r1) => readBitsAux n ((value <<< 1) ||| bit) r1

/-- `BitReader.read_bits(n)`: assemble `n` bits MSB-first. -/
def BitReader.read_bits (r : BitReader) (n : Nat) : Except Err (Nat × BitReader) :=
  readBitsAux n 0 r

/-- State of `bitstream.BitWriter`: emitted bytes, the partially filled
current byte, and how many bits it holds (0–7). -/
structure BitWriter where
  buffer : List Nat
  curr_byte : Nat
  bitpos : Nat
deriving Repr, DecidableEq

/-- `BitWriter._flush_curr_byte`: append `curr_byte & 0xFF` and, when it is
`0xFF`, a `0x00` stuffing byte. -/
def BitWriter.flushCurrByte (w : BitWriter) : BitWriter :=
  let byte := w.curr_byte &&& 0xFF
  { buffer := w.buffer ++ [byte] ++ (if byte = 0xFF then [0x00] else []),
    curr_byte := 0, bitpos := 0 }

/-- `BitWriter.write_bit`. -/
def BitWriter.write_bit (w : BitWriter) (bit : Nat) : BitWriter :=
  let c : Nat := (w.curr_byte <<< 1) ||| (bit &&& 1)
  let w1 : BitWriter := { w with curr_byte := c, bitpos := w.bitpos + 1 }
  if w1.bitpos = 8 then w1.flushCurrByte else w1

/-- The loop of `BitWriter.write_bits`: bits of `value` from `n-1` down to 0. -/
def writeBitsAux : Nat → Nat → BitWriter → BitWriter
  | 0, _, w => w
  | n + 1, value, w => writeBitsAux n value (w.write_bit ((value >>> n) &&& 1))

/-- `BitWriter.write_bits(n, value)`. -/
def BitWriter.write_bits (w : BitWriter) (n value : Nat) : BitWriter :=
  writeBitsAux n value w

/-- `BitWriter.flush`: pad the partial byte with low zeros and emit it. -/
def BitWriter.flush (w : BitWriter) : BitWriter :=
  if w.bitpos > 0 then
    BitWriter.flushCurrByte { w with curr_byte := w.curr_byte <<< (8 - w.bitpos) }
  else w

/-- `BitWriter.get_bytes`: flush, then return the buffer. -/
def BitWriter.get_bytes (w : BitWriter) : List Nat :=
  w.flush.buffer

/-- A fresh `BitWriter()`. -/
def initWriter : BitWriter := ⟨[], 0, 0⟩

/-- Write a list of `(width, value)` pairs with `write_bits`. -/
def writePairs : List (Nat × Nat) → BitWriter → BitWriter
  | [], w => w
  | (n, v) :: rest, w => writePairs rest (w.write_bits n v)

/-- Read back a list of widths with `read_bits`. -/
def readWidths : List Nat → BitReader → Except Err (List Nat)
  | [], _ => .ok []
  | n :: rest, r =>
    match r.read_bits n with
    | .error e => .error e
    | .ok (v, r1) =>
      match readWidths rest r1 with
      | .error e => .error e
      | .ok vs => .ok (v :: vs)

/-! ## Claim C2: bitstream round trip.  Abstract bit/byte model. -/

/-- Value of a bit list, MSB first. -/
def bitsVal (l : List Nat) : Nat := l.foldl (fun a b => 2 * a + b) 0

/-- The `n` low bits of `v`, MSB first (what `write_bits n v` emits). -/
def toBits : Nat → Nat → List Nat
  | 0, _ => []
  | n + 1, v => ((v >>> n) &&& 1) :: toBits n v

/-- JPEG byte stuffing: insert `0x00` after every `0xFF`. -/
def stuffBytes : List Nat → List Nat
  | [] => []
  | b :: rest => if b = 0xFF then b :: 0x00 :: stuffBytes rest else b :: stuffBytes rest

/-- Group a bit list into full bytes (dropping a trailing partial group). -/
def packBytes (l : List Nat) : List Nat :=
  if l.length < 8 then [] else bitsVal (l.take 8) :: packBytes (l.drop 8)
termination_by l.length
decreasing_by simp; omega

/-- The trailing partial group of a bit list. -/
def leftover (l : List Nat) : List Nat :=
  if l.length < 8 then l else leftover (l.drop 8)
termination_by l.length
decreasing_by simp; omega

/-- The padding byte `flush` would emit, if any. -/
def padByte (l : List Nat) : List Nat :=
  if (leftover l).length = 0 then []
  else [bitsVal (leftover l) * 2 ^ (8 - (leftover l).length)]

/-- The whole byte string a flushed writer holds for a bit list. -/
def finalBytes (l : List Nat) : List Nat := packBytes l ++ padByte l

/-- Bit `k` of a byte string, MSB first within each byte. -/
def nthBit (bytes : List Nat) (k : Nat) : Nat :=
  (bytes.getD (k / 8) 0 >>> (7 - k % 8)) &&& 1

/-- Reader byte position corresponding to `j` consumed unstuffed bytes. -/
def rpos (bytes : List Nat) (j : Nat) : Nat := (stuffBytes (bytes.take j)).length

theorem bitsVal_foldl_acc (l : List Nat) : ∀ a : Nat,
    l.foldl (fun x b => 2 * x + b) a = a * 2 ^ l.length + bitsVal l := by
  induction l with
  | nil => intro a; simp [bitsVal]
  | cons b rest ih =>
    intro a
    show List.foldl _ (2 * a + b) rest = _
    rw [ih (2 * a + b)]
    have hb : bitsVal (b :: rest) = b * 2 ^ rest.length + bitsVal rest := by
      show List.foldl _ (2 * 0 + b) rest = _
      rw [ih (2 * 0 + b)]
      ring_nf
    rw [hb]
    simp [List.length_cons, pow_succ]
    ring

theorem bitsVal_cons (b : Nat) (l : List Nat) :
    bitsVal (b :: l) = b * 2 ^ l.length + bitsVal l := by
  show List.foldl _ (2 * 0 + b) l = _
  rw [bitsVal_foldl_acc]
  ring_nf

theorem bitsVal_append (l1 l2 : List Nat) :
    bitsVal (l1 ++ l2) = bitsVal l1 * 2 ^ l2.length + bitsVal l2 := by
  show List.foldl _ 0 (l1 ++ l2) = _
  rw [List.foldl_append, bitsVal_foldl_acc]
  rfl

theorem bitsVal_lt (l : List Nat) (h : ∀ b ∈ l, b ≤ 1) : bitsVal l < 2 ^ l.length := by
  induction l with
  | nil => simp [bitsVal]
  | cons b rest ih =>
    rw [bitsVal_cons]
    have hb : b ≤ 1 := h b (List.mem_cons_self _ _)
    have hr : bitsVal rest < 2 ^ rest.length := ih (fun x hx => h x (List.mem_cons_of_mem _ hx))
    have : b * 2 ^ rest.length ≤ 2 ^ rest.length := by
      calc b * 2 ^ rest.length ≤ 1 * 2 ^ rest.length := by
            exact Nat.mul_le_mul_right _ hb
        _ = 2 ^ rest.length := one_mul _
    calc b * 2 ^ rest.length + bitsVal rest < b * 2 ^ rest.length + 2 ^ rest.length :=
          Nat.add_lt_add_left hr _
      _ ≤ 2 ^ rest.length + 2 ^ rest.length := Nat.add_le_add_right this _
      _ = 2 ^ (rest.length + 1) := by rw [pow_succ]; ring
      _ = 2 ^ (b :: rest).length := by rw [List.length_cons]

theorem toBits_length (n v : Nat) : (toBits n v).length = n := by
  induction n generalizing v with
  | zero => rfl
  | succ n ih => simp [toBits, ih]

theorem toBits_le_one (n v : Nat) : ∀ b ∈ toBits n v, b ≤ 1 := by
  induction n generalizing v with
  | zero => intro b hb; simp [toBits] at hb
  | succ n ih =>
    intro b hb
    rw [toBits] at hb
    rcases List.mem_cons.mp hb with h | h
    · subst h
      have := Nat.and_one_is_mod (v >>> n)
      omega
    · exact ih v b h

theorem bitsVal_toBits (n v : Nat) : bitsVal (toBits n v) = v % 2 ^ n := by
  induction n generalizing v with
  | zero => simp [toBits, bitsVal, Nat.mod_one]
  | succ n ih =>
    rw [toBits, bitsVal_cons, toBits_length, ih]
    rw [Nat.and_one_is_mod, Nat.shiftRight_eq_div_pow]
    rw [pow_succ, Nat.mod_mul]
    ring

theorem and_one_of_le {b : Nat} (hb : b ≤ 1) : b &&& 1 = b := by
  rw [Nat.and_one_is_mod]
  omega

theorem and_255_of_lt {x : Nat} (hx : x < 256) : x &&& 255 = x := by
  have h : x &&& 2 ^ 8 - 1 = x := Nat.and_pow_two_sub_one_of_lt_two_pow (by omega)
  simpa using h

theorem two_mul_or_bit (a b : Nat) (hb : b ≤ 1) : 2 * a ||| b = 2 * a + b := by
  interval_cases b
  · simp
  · have h2 : 2 * a = Nat.bit false a := by simp [Nat.bit]
    have h1 : (1 : Nat) = Nat.bit true 0 := by simp [Nat.bit]
    rw [h2, h1, Nat.lor_bit]
    simp [Nat.bit]

theorem bitsVal_singleton (b : Nat) : bitsVal [b] = b := by
  show 2 * 0 + b = b
  omega

theorem stuffBytes_append (l1 l2 : List Nat) :
    stuffBytes (l1 ++ l2) = stuffBytes l1 ++ stuffBytes l2 := by
  induction l1 with
  | nil => rfl
  | cons b rest ih =>
    show stuffBytes (b :: (rest ++ l2)) = _
    rw [stuffBytes, stuffBytes]
    split
    · simp [ih]
    · simp [ih]

theorem packBytes_small {l : List Nat} (h : l.length < 8) : packBytes l = [] := by
  rw [packBytes, if_pos h]

theorem leftover_small {l : List Nat} (h : l.length < 8) : leftover l = l := by
  rw [leftover, if_pos h]

theorem packBytes_chunk (p rest : List Nat) (hp : p.length = 8) :
    packBytes (p ++ rest) = bitsVal p :: packBytes rest := by
  rw [packBytes, if_neg (by simp [hp]), List.take_left' hp, List.drop_left' hp]

theorem leftover_chunk (p rest : List Nat) (hp : p.length = 8) :
    leftover (p ++ rest) = leftover rest := by
  rw [leftover, if_neg (by simp [hp]), List.drop_left' hp]

/-- Writing a list of single bits. -/
def writeBitList : List Nat → BitWriter → BitWriter
  | [], w => w
  | b :: rest, w => writeBitList rest (w.write_bit b)

theorem writeBitList_append (l1 l2 : List Nat) (w : BitWriter) :
    writeBitList (l1 ++ l2) w = writeBitList l2 (writeBitList l1 w) := by
  induction l1 generalizing w with
  | nil => rfl
  | cons b rest ih => exact ih (w.write_bit b)

theorem write_bits_eq_writeBitList (n v : Nat) (w : BitWriter) :
    w.write_bits n v = writeBitList (toBits n v) w := by
  show writeBitsAux n v w = _
  induction n generalizing w with
  | zero => rfl
  | succ n ih =>
    rw [writeBitsAux, toBits, writeBitList]
    exact ih _

theorem writePairs_eq (pairs : List (Nat × Nat)) (w : BitWriter) :
    writePairs pairs w = writeBitList (pairs.flatMap (fun p => toBits p.1 p.2)) w := by
  induction pairs generalizing w with
  | nil => rfl
  | cons p rest ih =>
    obtain ⟨n, v⟩ := p
    rw [writePairs, List.flatMap_cons, writeBitList_append, ← write_bits_eq_writeBitList]
    exact ih _

/-- Coupling invariant between the concrete writer and the abstract
byte/leftover decomposition of the bits written so far. -/
theorem writeBitList_state : ∀ (bs : List Nat), (∀ x ∈ bs, x ≤ 1) →
    ∀ (pend done : List Nat), (∀ x ∈ pend, x ≤ 1) → pend.length < 8 →
    writeBitList bs ⟨stuffBytes done, bitsVal pend, pend.length⟩ =
      ⟨stuffBytes (done ++ packBytes (pend ++ bs)),
        bitsVal (leftover (pend ++ bs)), (leftover (pend ++ bs)).length⟩ := by
  intro bs
  induction bs with
  | nil =>
    intro _ pend done hpend hlen
    rw [writeBitList, List.append_nil, packBytes_small hlen, leftover_small hlen,
      List.append_nil]
  | cons b bs ih =>
    intro hb pend done hpend hlen
    have hb1 : b ≤ 1 := hb b (List.mem_cons_self _ _)
    have hbs : ∀ x ∈ bs, x ≤ 1 := fun x hx => hb x (List.mem_cons_of_mem _ hx)
    have hpb : ∀ x ∈ pend ++ [b], x ≤ 1 := by
      intro x hx
      rcases List.mem_append.mp hx with h | h
      · exact hpend x h
      · rcases List.mem_singleton.mp h with rfl
        exact hb1
    have hcurr : (bitsVal pend <<< 1) ||| (b &&& 1) = bitsVal (pend ++ [b]) := by
      rw [and_one_of_le hb1, Nat.shiftLeft_eq, pow_one, mul_comm,
        two_mul_or_bit _ _ hb1, bitsVal_append, bitsVal_singleton]
      simp [mul_comm]
    have hassoc : pend ++ b :: bs = (pend ++ [b]) ++ bs := by
      rw [List.append_assoc, List.singleton_append]
    rw [writeBitList]
    show writeBitList bs (BitWriter.write_bit _ b) = _
    simp only [BitWriter.write_bit, hcurr]
    by_cases h8 : pend.length + 1 = 8
    · rw [if_pos (by simpa using h8)]
      have hlen8 : (pend ++ [b]).length = 8 := by simpa using h8
      have hbyte : bitsVal (pend ++ [b]) &&& 255 = bitsVal (pend ++ [b]) :=
        and_255_of_lt (by
          have := bitsVal_lt (pend ++ [b]) hpb
          rw [hlen8] at this
          omega)
      simp only [BitWriter.flushCurrByte, hbyte]
      have hsB : [bitsVal (pend ++ [b])] ++
          (if bitsVal (pend ++ [b]) = 255 then [0] else []) =
          stuffBytes [bitsVal (pend ++ [b])] := by
        rw [stuffBytes]
        split <;> rfl
      rw [List.append_assoc, hsB, ← stuffBytes_append]
      have key := ih hbs [] (done ++ [bitsVal (pend ++ [b])])
        (by intro x hx; simp at hx) (by simp)
      have h0 : bitsVal ([] : List Nat) = 0 := rfl
      rw [h0, List.length_nil, List.nil_append] at key
      rw [key, hassoc, packBytes_chunk _ _ hlen8, leftover_chunk _ _ hlen8]
      congr 1
      rw [List.append_assoc]
      rfl
    · rw [if_neg (by simpa using h8)]
      have hlt : (pend ++ [b]).length < 8 := by
        simp only [List.length_append, List.length_singleton]
        omega
      have key := ih hbs (pend ++ [b]) done hpb hlt
      have hlen1 : (pend ++ [b]).length = pend.length + 1 := by simp
      rw [hlen1] at key
      rw [key, hassoc]

theorem leftover_length_lt (l : List Nat) : (leftover l).length < 8 := by
  by_cases h : l.length < 8
  · rw [leftover_small h]; exact h
  · rw [leftover, if_neg h]; exact leftover_length_lt (l.drop 8)
termination_by l.length
decreasing_by simp; omega

theorem leftover_subset (l : List Nat) : ∀ x ∈ leftover l, x ∈ l := by
  by_cases h : l.length < 8
  · rw [leftover_small h]; exact fun x hx => hx
  · rw [leftover, if_neg h]
    exact fun x hx => List.mem_of_mem_drop (leftover_subset (l.drop 8) x hx)
termination_by l.length
decreasing_by simp; omega

theorem leftover_length_mod (l : List Nat) : (leftover l).length = l.length % 8 := by
  by_cases h : l.length < 8
  · rw [leftover_small h]; omega
  · rw [leftover, if_neg h, leftover_length_mod (l.drop 8), List.length_drop]
    omega
termination_by l.length
decreasing_by simp; omega

theorem leftover_eq_drop (l : List Nat) : leftover l = l.drop (8 * (l.length / 8)) := by
  by_cases h : l.length < 8
  · rw [leftover_small h, Nat.div_eq_of_lt h]
    simp
  · rw [leftover, if_neg h, leftover_eq_drop (l.drop 8), List.drop_drop, List.length_drop]
    congr 1
    omega
termination_by l.length
decreasing_by simp; omega

theorem packBytes_length (l : List Nat) : (packBytes l).length = l.length / 8 := by
  by_cases h : l.length < 8
  · rw [packBytes_small h, Nat.div_eq_of_lt h]
    rfl
  · rw [packBytes, if_neg h, List.length_cons, packBytes_length (l.drop 8), List.length_drop]
    omega
termination_by l.length
decreasing_by simp; omega

theorem packBytes_lt (l : List Nat) (hl : ∀ x ∈ l, x ≤ 1) :
    ∀ x ∈ packBytes l, x < 256 := by
  by_cases h : l.length < 8
  · rw [packBytes_small h]; intro x hx; simp at hx
  · rw [packBytes, if_neg h]
    intro x hx
    rcases List.mem_cons.mp hx with rfl | hx
    · have h8 : (l.take 8).length = 8 := by
        rw [List.length_take]
        omega
      have := bitsVal_lt (l.take 8) (fun y hy => hl y (List.take_subset 8 l hy))
      rw [h8] at this
      omega
    · exact packBytes_lt (l.drop 8) (fun y hy => hl y (List.drop_subset 8 l hy)) x hx
termination_by l.length
decreasing_by simp; omega

theorem packBytes_getD (l : List Nat) : ∀ j, j < l.length / 8 →
    (packBytes l).getD j 0 = bitsVal ((l.drop (8 * j)).take 8) := by
  by_cases h : l.length < 8
  · intro j hj
    rw [Nat.div_eq_of_lt h] at hj
    omega
  · intro j hj
    rw [packBytes, if_neg h]
    match j with
    | 0 => simp
    | j + 1 =>
      show (packBytes (l.drop 8)).getD j 0 = _
      rw [packBytes_getD (l.drop 8) j (by rw [List.length_drop]; omega), List.drop_drop]
      have he : 8 + 8 * j = 8 * (j + 1) := by omega
      rw [he]
termination_by l.length
decreasing_by simp; omega

theorem finalBytes_lt (l : List Nat) (hl : ∀ x ∈ l, x ≤ 1) :
    ∀ x ∈ finalBytes l, x < 256 := by
  intro x hx
  rcases List.mem_append.mp hx with h | h
  · exact packBytes_lt l hl x h
  · rw [padByte] at h
    split at h
    · simp at h
    · rcases List.mem_singleton.mp h with rfl
      have hq := leftover_length_lt l
      have hv := bitsVal_lt (leftover l) (fun y hy => hl y (leftover_subset l y hy))
      calc bitsVal (leftover l) * 2 ^ (8 - (leftover l).length)
          < 2 ^ (leftover l).length * 2 ^ (8 - (leftover l).length) :=
            (Nat.mul_lt_mul_right (Nat.two_pow_pos _)).mpr hv
        _ = 2 ^ 8 := by
            rw [← pow_add]
            congr 1
            omega

theorem finalBytes_len (l : List Nat) : l.length ≤ 8 * (finalBytes l).length := by
  rw [finalBytes, List.length_append, packBytes_length, padByte]
  have := leftover_length_mod l
  split
  · simp only [List.length_nil]
    omega
  · simp only [List.length_singleton]
    omega

/-- The byte string `get_bytes` returns for a written bit list: the packed
full bytes plus the zero-padded final byte, all with `0xFF` stuffing. -/
theorem get_bytes_eq (bits : List Nat) (hb : ∀ x ∈ bits, x ≤ 1) :
    (writeBitList bits initWriter).get_bytes = stuffBytes (finalBytes bits) := by
  have hstate := writeBitList_state bits hb [] [] (by intro x hx; simp at hx) (by simp)
  have h0 : bitsVal ([] : List Nat) = 0 := rfl
  rw [h0, List.length_nil, List.nil_append, List.nil_append] at hstate
  show (writeBitList bits ⟨[], 0, 0⟩).get_bytes = _
  have hinit : (⟨[], 0, 0⟩ : BitWriter) = ⟨stuffBytes [], 0, 0⟩ := rfl
  rw [hinit, hstate, BitWriter.get_bytes]
  simp only [BitWriter.flush]
  by_cases hq : (leftover bits).length = 0
  · rw [if_neg (by omega)]
    show stuffBytes (packBytes bits) = _
    rw [finalBytes, padByte, if_pos hq, List.append_nil]
  · rw [if_pos (by omega)]
    simp only [BitWriter.flushCurrByte]
    have hbound : bitsVal (leftover bits) <<< (8 - (leftover bits).length) &&& 255 =
        bitsVal (leftover bits) * 2 ^ (8 - (leftover bits).length) := by
      rw [Nat.shiftLeft_eq]
      refine and_255_of_lt ?_
      have hlt := leftover_length_lt bits
      have hv := bitsVal_lt (leftover bits) (fun y hy => hb y (leftover_subset bits y hy))
      calc bitsVal (leftover bits) * 2 ^ (8 - (leftover bits).length)
          < 2 ^ (leftover bits).length * 2 ^ (8 - (leftover bits).length) :=
            (Nat.mul_lt_mul_right (Nat.two_pow_pos _)).mpr hv
        _ = 2 ^ 8 := by
            rw [← pow_add]
            congr 1
            omega
    rw [hbound]
    have hsB : ∀ X : Nat, [X] ++ (if X = 255 then [0] else []) = stuffBytes [X] := by
      intro X
      rw [stuffBytes]
      split <;> rfl
    rw [List.append_assoc, hsB, ← stuffBytes_append, finalBytes, padByte, if_neg hq]

theorem stuffOne (x : Nat) : stuffBytes [x] = if x = 255 then [x, 0] else [x] := by
  rw [stuffBytes]
  split <;> rfl

theorem rpos_succ (bytes : List Nat) (j : Nat) (hj : j < bytes.length) :
    rpos bytes (j + 1) = rpos bytes j + (if bytes[j] = 255 then 2 else 1) := by
  rw [rpos, rpos, List.take_succ, List.getElem?_eq_getElem hj]
  show (stuffBytes (bytes.take j ++ [bytes[j]])).length = _
  rw [stuffBytes_append, List.length_append, stuffOne]
  split <;> rfl

theorem stuff_split (bytes : List Nat) (j : Nat) (hj : j < bytes.length) :
    stuffBytes bytes =
      stuffBytes (bytes.take j) ++ stuffBytes (bytes[j] :: bytes.drop (j + 1)) := by
  conv_lhs => rw [show bytes = bytes.take j ++ (bytes[j] :: bytes.drop (j + 1)) by
    rw [← List.drop_eq_getElem_cons hj, List.take_append_drop]]
  rw [stuffBytes_append]

theorem stuff_getElem (bytes : List Nat) (j : Nat) (hj : j < bytes.length) :
    (stuffBytes bytes)[rpos bytes j]? = some bytes[j] := by
  rw [stuff_split bytes j hj, rpos, List.getElem?_append_right (le_refl _)]
  rw [Nat.sub_self, stuffBytes]
  split <;> simp

theorem stuff_getElem_ff (bytes : List Nat) (j : Nat) (hj : j < bytes.length)
    (hff : bytes[j] = 255) :
    (stuffBytes bytes)[rpos bytes j + 1]? = some 0 := by
  rw [stuff_split bytes j hj, rpos, List.getElem?_append_right (by omega)]
  rw [show (stuffBytes (bytes.take j)).length + 1 - (stuffBytes (bytes.take j)).length = 1
    by omega]
  rw [stuffBytes, if_pos hff]
  simp

/-- One `read_bit` step against the abstract bit index `k`. -/
theorem read_bit_spec (bytes : List Nat) (k : Nat) (hk : k < 8 * bytes.length) :
    BitReader.read_bit ⟨stuffBytes bytes, rpos bytes (k / 8), k % 8⟩ =
      .ok ((bytes.getD (k / 8) 0 >>> (7 - k % 8)) &&& 1,
        ⟨stuffBytes bytes, rpos bytes ((k + 1) / 8), (k + 1) % 8⟩) := by
  have hj : k / 8 < bytes.length := by omega
  rw [getD_of_lt _ _ _ hj]
  simp only [BitReader.read_bit, stuff_getElem bytes (k / 8) hj]
  by_cases h8 : k % 8 + 1 = 8
  · rw [if_pos h8]
    by_cases hff : bytes[k / 8] = 255
    · rw [if_pos ⟨hff, stuff_getElem_ff bytes (k / 8) hj hff⟩]
      rw [show (k + 1) / 8 = k / 8 + 1 by omega, rpos_succ bytes (k / 8) hj, if_pos hff,
        show (k + 1) % 8 = 0 by omega]
    · rw [if_neg (fun hcon => hff hcon.1)]
      rw [show (k + 1) / 8 = k / 8 + 1 by omega, rpos_succ bytes (k / 8) hj, if_neg hff,
        show (k + 1) % 8 = 0 by omega]
  · rw [if_neg h8]
    rw [show (k + 1) / 8 = k / 8 by omega, show (k + 1) % 8 = k % 8 + 1 by omega]

/-- `readBitsAux` against the abstract bit index. -/
theorem readBitsAux_spec (bytes : List Nat) : ∀ (n k acc : Nat),
    k + n ≤ 8 * bytes.length →
    readBitsAux n acc ⟨stuffBytes bytes, rpos bytes (k / 8), k % 8⟩ =
      .ok (List.foldl (fun a b => 2 * a + b) acc
          ((List.range n).map (fun i => nthBit bytes (k + i))),
        ⟨stuffBytes bytes, rpos bytes ((k + n) / 8), (k + n) % 8⟩) := by
  intro n
  induction n with
  | zero => intro k acc _; simp [readBitsAux]
  | succ n ih =>
    intro k acc hkn
    rw [readBitsAux, read_bit_spec bytes k (by omega)]
    show readBitsAux n ((acc <<< 1) ||| nthBit bytes k) _ = _
    have hbit : nthBit bytes k ≤ 1 := by
      have := Nat.and_one_is_mod (bytes.getD (k / 8) 0 >>> (7 - k % 8))
      rw [nthBit]
      omega
    have hacc : (acc <<< 1) ||| nthBit bytes k = 2 * acc + nthBit bytes k := by
      rw [Nat.shiftLeft_eq, pow_one, mul_comm, two_mul_or_bit _ _ hbit]
    rw [hacc, ih (k + 1) (2 * acc + nthBit bytes k) (by omega),
      List.range_succ_eq_map, List.map_cons, List.foldl_cons, List.map_map,
      show k + (n + 1) = k + 1 + n by omega]
    have hm : (List.range n).map ((fun i => nthBit bytes (k + i)) ∘ Nat.succ) =
        (List.range n).map (fun i => nthBit bytes (k + 1 + i)) :=
      List.map_congr_left (fun i _ => by
        show nthBit bytes (k + (i + 1)) = nthBit bytes (k + 1 + i)
        rw [show k + (i + 1) = k + 1 + i by omega])
    rw [hm]
    rfl

theorem getD_append_left {α : Type} (l1 l2 : List α) (i : Nat) (d : α)
    (h : i < l1.length) : (l1 ++ l2).getD i d = l1.getD i d := by
  rw [List.getD_eq_getElem?_getD, List.getElem?_append_left h, ← List.getD_eq_getElem?_getD]

theorem getD_append_right {α : Type} (l1 l2 : List α) (i : Nat) (d : α)
    (h : l1.length ≤ i) : (l1 ++ l2).getD i d = l2.getD (i - l1.length) d := by
  rw [List.getD_eq_getElem?_getD, List.getElem?_append_right h, ← List.getD_eq_getElem?_getD]

theorem bitsVal_replicate_zero (n : Nat) : bitsVal (List.replicate n 0) = 0 := by
  induction n with
  | zero => rfl
  | succ n ih =>
    rw [List.replicate_succ, bitsVal_cons, ih]
    omega

/-- Extracting bit `m` (MSB first) of the value of a bit list. -/
theorem bitsVal_extract (cl : List Nat) (hcl : ∀ x ∈ cl, x ≤ 1) :
    ∀ m, m < cl.length → (bitsVal cl >>> (cl.length - 1 - m)) &&& 1 = cl.getD m 0 := by
  induction cl with
  | nil => intro m hm; simp at hm
  | cons b rest ih =>
    intro m hm
    rw [bitsVal_cons]
    match m with
    | 0 =>
      rw [show (b :: rest).length - 1 - 0 = rest.length by simp]
      rw [Nat.shiftRight_eq_div_pow]
      have hr := bitsVal_lt rest (fun x hx => hcl x (List.mem_cons_of_mem _ hx))
      have hdiv : (b * 2 ^ rest.length + bitsVal rest) / 2 ^ rest.length = b := by
        rw [mul_comm, Nat.mul_add_div (Nat.two_pow_pos _), Nat.div_eq_of_lt hr]
        omega
      rw [hdiv, and_one_of_le (hcl b (List.mem_cons_self _ _))]
      rfl
    | m + 1 =>
      have hmr : m < rest.length := by
        have := hm
        simp only [List.length_cons] at this
        omega
      have hshift : (b :: rest).length - 1 - (m + 1) = rest.length - 1 - m := by
        simp only [List.length_cons]
        omega
      rw [hshift, Nat.shiftRight_eq_div_pow, Nat.and_one_is_mod]
      have hs : rest.length - 1 - m < rest.length := by omega
      have hpow : (2 : Nat) ^ rest.length =
          2 ^ (rest.length - 1 - m) * 2 ^ (rest.length - (rest.length - 1 - m)) := by
        rw [← pow_add]
        congr 1
        omega
      have hdiv : (b * 2 ^ rest.length + bitsVal rest) / 2 ^ (rest.length - 1 - m) =
          b * 2 ^ (rest.length - (rest.length - 1 - m)) +
            bitsVal rest / 2 ^ (rest.length - 1 - m) := by
        rw [hpow, show b * (2 ^ (rest.length - 1 - m) *
            2 ^ (rest.length - (rest.length - 1 - m))) =
          2 ^ (rest.length - 1 - m) * (b * 2 ^ (rest.length - (rest.length - 1 - m))) by ring,
          Nat.mul_add_div (Nat.two_pow_pos _)]
      rw [hdiv]
      have ht : rest.length - (rest.length - 1 - m) = (m + 1 - 1) + 1 := by omega
      have heven : (b * 2 ^ (rest.length - (rest.length - 1 - m)) +
          bitsVal rest / 2 ^ (rest.length - 1 - m)) % 2 =
          (bitsVal rest / 2 ^ (rest.length - 1 - m)) % 2 := by
        rw [ht, pow_succ, show b * (2 ^ (m + 1 - 1) * 2) = b * 2 ^ (m + 1 - 1) * 2 by ring]
        omega
      rw [heven, ← Nat.and_one_is_mod, ← Nat.shiftRight_eq_div_pow]
      rw [ih (fun x hx => hcl x (List.mem_cons_of_mem _ hx)) m hmr]
      rfl

/-- Bit `k` of the flushed byte string is bit `k` of the written bit list. -/
theorem nthBit_finalBytes (l : List Nat) (hl : ∀ x ∈ l, x ≤ 1) (k : Nat)
    (hk : k < l.length) : nthBit (finalBytes l) k = l.getD k 0 := by
  rw [nthBit, finalBytes]
  by_cases hj : k / 8 < l.length / 8
  · -- inside a packed byte
    rw [getD_append_left _ _ _ _ (by rw [packBytes_length]; exact hj)]
    rw [packBytes_getD l (k / 8) hj]
    have hchunk : ((l.drop (8 * (k / 8))).take 8).length = 8 := by
      rw [List.length_take, List.length_drop]
      omega
    have hext := bitsVal_extract ((l.drop (8 * (k / 8))).take 8)
      (fun x hx => hl x (List.drop_subset _ _ (List.take_subset _ _ hx))) (k % 8)
      (by omega)
    rw [hchunk] at hext
    rw [show (8 : Nat) - 1 - k % 8 = 7 - k % 8 by omega] at hext
    rw [hext]
    rw [List.getD_eq_getElem?_getD, List.getElem?_take_of_lt (by omega), List.getElem?_drop,
      ← List.getD_eq_getElem?_getD, show 8 * (k / 8) + k % 8 = k by omega]
  · -- inside the padding byte
    have hje : k / 8 = l.length / 8 := by omega
    have hm : k % 8 < l.length % 8 := by omega
    have hq : (leftover l).length = l.length % 8 := leftover_length_mod l
    have hq0 : (leftover l).length ≠ 0 := by omega
    rw [getD_append_right _ _ _ _ (by rw [packBytes_length]; omega)]
    rw [packBytes_length, hje, Nat.sub_self, padByte, if_neg hq0]
    have hlo : ∀ x ∈ leftover l, x ≤ 1 := fun x hx => hl x (leftover_subset l x hx)
    have hpad : ∀ x ∈ leftover l ++ List.replicate (8 - (leftover l).length) 0, x ≤ 1 := by
      intro x hx
      rcases List.mem_append.mp hx with h | h
      · exact hlo x h
      · rw [List.eq_of_mem_replicate h]
        omega
    have hval : bitsVal (leftover l) * 2 ^ (8 - (leftover l).length) =
        bitsVal (leftover l ++ List.replicate (8 - (leftover l).length) 0) := by
      rw [bitsVal_append, bitsVal_replicate_zero, List.length_replicate]
      omega
    have hlen8 : (leftover l ++ List.replicate (8 - (leftover l).length) 0).length = 8 := by
      rw [List.length_append, List.length_replicate]
      have := leftover_length_lt l
      omega
    have hext := bitsVal_extract (leftover l ++ List.replicate (8 - (leftover l).length) 0)
      hpad (k % 8) (by omega)
    rw [hlen8] at hext
    rw [show (8 : Nat) - 1 - k % 8 = 7 - k % 8 by omega] at hext
    simp only [List.getD_cons_zero]
    rw [hval, hext, getD_append_left _ _ _ _ (by omega)]
    rw [leftover_eq_drop, List.getD_eq_getElem?_getD, List.getElem?_drop,
      ← List.getD_eq_getElem?_getD, show 8 * (l.length / 8) + k % 8 = k by omega]

theorem list_eq_of_getD {α : Type} {d : α} (l1 l2 : List α) (hlen : l1.length = l2.length)
    (h : ∀ i < l1.length, l1.getD i d = l2.getD i d) : l1 = l2 := by
  apply List.ext_getElem hlen
  intro i h1 h2
  have hi := h i h1
  rw [getD_of_lt _ _ _ h1, getD_of_lt _ _ _ h2] at hi
  exact hi

/-- Reading a width list against the abstract global bit list `B`. -/
theorem readWidths_spec (bytes B : List Nat)
    (hrel : ∀ k < B.length, nthBit bytes k = B.getD k 0)
    (hBlen : B.length ≤ 8 * bytes.length) :
    ∀ (ps : List (Nat × Nat)) (k : Nat), (∀ p ∈ ps, p.2 < 2 ^ p.1) →
    k + (ps.flatMap (fun p => toBits p.1 p.2)).length ≤ B.length →
    (∀ i < (ps.flatMap (fun p => toBits p.1 p.2)).length,
      (ps.flatMap (fun p => toBits p.1 p.2)).getD i 0 = B.getD (k + i) 0) →
    readWidths (ps.map Prod.fst) ⟨stuffBytes bytes, rpos bytes (k / 8), k % 8⟩ =
      .ok (ps.map Prod.snd) := by
  intro ps
  induction ps with
  | nil => intro k _ _ _; rfl
  | cons p rest ih =>
    obtain ⟨n, v⟩ := p
    intro k hv hlen hseg
    simp only [List.flatMap_cons, List.length_append, toBits_length] at hlen hseg
    rw [List.map_cons, readWidths, BitReader.read_bits,
      readBitsAux_spec bytes n k 0 (by omega)]
    have hval : List.foldl (fun a b => 2 * a + b) 0
        ((List.range n).map (fun i => nthBit bytes (k + i))) = v := by
      have hmap : (List.range n).map (fun i => nthBit bytes (k + i)) = toBits n v := by
        apply list_eq_of_getD
        · rw [List.length_map, List.length_range, toBits_length]
        · intro i hi
          rw [List.length_map, List.length_range] at hi
          rw [getD_map_range _ _ _ _ hi, hrel (k + i) (by omega),
            ← hseg i (by omega), getD_append_left _ _ _ _ (by rw [toBits_length]; omega)]
      rw [hmap]
      show bitsVal (toBits n v) = v
      rw [bitsVal_toBits, Nat.mod_eq_of_lt (hv (n, v) (List.mem_cons_self _ _))]
    rw [hval]
    have hrec := ih (k + n) (fun p hp => hv p (List.mem_cons_of_mem _ hp)) (by omega)
      (by
        intro i hi
        have hx := hseg (n + i) (by omega)
        rw [getD_append_right _ _ _ _ (by rw [toBits_length]; omega), toBits_length,
          Nat.add_sub_cancel_left] at hx
        rw [hx]
        congr 1
        omega)
    simp only [hrec, List.map_cons]

/-- C2.  Bitstream round trip: writing any list of `(width, value)` pairs with
`write_bits` (each value in range for its width), flushing with `get_bytes`,
and reading the same widths back with `read_bits` over the produced byte
string returns exactly the written values — including all stuffed `0xFF 0x00`
pairs and zero padding of the final partial byte. -/
theorem bitstream_roundtrip (pairs : List (Nat × Nat)) (h : ∀ p ∈ pairs, p.2 < 2 ^ p.1) :
    readWidths (pairs.map Prod.fst)
      ⟨(writePairs pairs initWriter).get_bytes, 0, 0⟩ = .ok (pairs.map Prod.snd) := by
  have hbits : ∀ x ∈ pairs.flatMap (fun p => toBits p.1 p.2), x ≤ 1 := by
    intro x hx
    obtain ⟨p, _, hxp⟩ := List.mem_flatMap.mp hx
    exact toBits_le_one _ _ x hxp
  rw [writePairs_eq, get_bytes_eq _ hbits]
  exact readWidths_spec (finalBytes (pairs.flatMap fun p => toBits p.1 p.2))
    (pairs.flatMap fun p => toBits p.1 p.2)
    (fun k hk => nthBit_finalBytes _ hbits k hk)
    (finalBytes_len _) pairs 0 h (by omega)
    (fun i hi => by rw [Nat.zero_add])

/-- Witness for C2: three writes — 0xFF twice (forcing two stuffed bytes) and
a 3-bit value (forcing padding of a 19-bit stream). -/
theorem bitstream_roundtrip_witness :
    readWidths ([(8, 255), (3, 5), (8, 255)].map Prod.fst)
      ⟨(writePairs [(8, 255), (3, 5), (8, 255)] initWriter).get_bytes, 0, 0⟩ =
      .ok ([(8, 255), (3, 5), (8, 255)].map Prod.snd) :=
  bitstream_roundtrip [(8, 255), (3, 5), (8, 255)] (by decide)

/-! ## rle.py -/

/-- The RLE symbol alphabet of `rle.py` (tagged tuples in the source). -/
inductive Sym where
  /-- `("DC", value)` -/
  | dc : Int → Sym
  /-- `(run, size, amplitude)` -/
  | ac : Nat → Nat → Int → Sym
  /-- `("ZRL", 0)` -/
  | zrl : Sym
  /-- `("EOB", 0)` -/
  | eob : Sym
deriving DecidableEq, Repr

/-- Python `int.bit_length` for naturals, with explicit fuel (the fuel `n`
always suffices since the argument at least halves each step). -/
def bitLenAux : Nat → Nat → Nat
  | 0, _ => 0
  | fuel + 1, n => if n = 0 then 0 else bitLenAux fuel (n / 2) + 1

/-- `n.bit_length()`. -/
def bitLen (n : Nat) : Nat := bitLenAux n n

/-- The `while run > 15` loop of `encode_ac`: emitted ZRL symbols and the
remaining run. -/
def zrlLoop (run : Nat) : List Sym × Nat :=
  if run > 15 then
    let p := zrlLoop (run - 16)
    (Sym.zrl :: p.1, p.2)
  else ([], run)
termination_by run

/-- The AC loop of `encode_ac` over `coeffs[1:]`, carrying the zero run. -/
def encACLoop : List Int → Nat → List Sym
  | [], run => if run > 0 then [Sym.eob] else []
  | c :: rest, run =>
    if c = 0 then encACLoop rest (run + 1)
    else
      let p := zrlLoop run
      let size := if c > 0 then bitLen c.toNat else bitLen (-c).toNat
      p.1 ++ (Sym.ac p.2 size c :: encACLoop rest 0)

/-- `rle.encode_ac(coeffs)`: `ValueError` unless exactly 64 coefficients;
first coefficient becomes the DC symbol, the rest are run-length coded. -/
def encode_ac (coeffs : List Int) : Except Err (List Sym) :=
  if coeffs.length = 64 then
    .ok (Sym.dc (coeffs.getD 0 0) :: encACLoop (coeffs.drop 1) 0)
  else .error (.valueError "Input must be a list of 64 coefficients")

/-- `for i in range(n): if idx >= 64: break; coeffs[idx] = 0; idx += 1`. -/
def fillRun : List Int → Nat → Nat → List Int × Nat
  | coeffs, idx, 0 => (coeffs, idx)
  | coeffs, idx, n + 1 =>
    if idx ≥ 64 then (coeffs, idx) else fillRun (coeffs.set idx 0) (idx + 1) n

/-- `while idx < 64: coeffs[idx] = 0; idx += 1`. -/
def zeroFill (coeffs : List Int) (idx : Nat) : List Int :=
  if idx < 64 then zeroFill (coeffs.set idx 0) (idx + 1) else coeffs
termination_by 64 - idx

/-- The symbol loop of `decode_ac` over `symbols[1:]`.  A stray DC tuple in
the tail fails tuple unpacking in Python (`ValueError`). -/
def decACLoop : List Sym → List Int → Nat → Except Err (List Int)
  | [], coeffs, idx => .ok (zeroFill coeffs idx)
  | s :: rest, coeffs, idx =>
    match s with
    | Sym.zrl =>
      let p := fillRun coeffs idx 16
      decACLoop rest p.1 p.2
    | Sym.eob => .ok (zeroFill coeffs idx)
    | Sym.ac run _ amp =>
      let p := fillRun coeffs idx run
      if p.2 < 64 then decACLoop rest (p.1.set p.2 amp) (p.2 + 1)
      else decACLoop rest p.1 p.2
    | Sym.dc _ => .error (.valueError "not enough values to unpack")

/-- `rle.decode_ac(symbols)`: first symbol must be DC; decode the rest into a
fresh `[0]*64`. -/
def decode_ac (symbols : List Sym) : Except Err (List Int) :=
  match symbols with
  | [] => .error .indexError
  | Sym.dc v :: rest => decACLoop rest ((List.replicate 64 (0 : Int)).set 0 v) 1
  | _ :: _ => .error (.valueError "First symbol must be DC")

theorem getD_replicate {α : Type} (n i : Nat) (a d : α) :
    (List.replicate n a).getD i d = if i < n then a else d := by
  rw [List.getD_eq_getElem?_getD, List.getElem?_replicate]
  split <;> rfl

theorem set_getD_self (l : List Int) (i : Nat) (h : l.getD i 0 = 0) : l.set i 0 = l := by
  by_cases hl : i < l.length
  · apply List.ext_getElem?
    intro j
    by_cases hij : i = j
    · subst hij
      rw [List.getElem?_set_self hl, List.getElem?_eq_getElem hl,
        ← getD_of_lt l i 0 hl, h]
    · rw [List.getElem?_set_ne hij]
  · rw [List.set_eq_of_length_le (by omega)]

theorem zrlLoop_eq (run : Nat) :
    zrlLoop run = (List.replicate (run / 16) Sym.zrl, run % 16) := by
  rw [zrlLoop]
  split
  · rw [zrlLoop_eq (run - 16)]
    have h1 : run / 16 = (run - 16) / 16 + 1 := by omega
    have h2 : (run - 16) % 16 = run % 16 := by omega
    rw [h1, h2, List.replicate_succ]
  · have h1 : run / 16 = 0 := by omega
    have h2 : run % 16 = run := by omega
    rw [h1, h2]
    rfl
termination_by run

theorem fillRun_spec : ∀ (n : Nat) (coeffs : List Int) (idx : Nat), idx + n ≤ 64 →
    (∀ j, idx ≤ j → coeffs.getD j 0 = 0) →
    fillRun coeffs idx n = (coeffs, idx + n) := by
  intro n
  induction n with
  | zero => intro coeffs idx _ _; rfl
  | succ n ih =>
    intro coeffs idx hle hz
    rw [fillRun, if_neg (by omega)]
    rw [set_getD_self coeffs idx (hz idx (le_refl _))]
    rw [ih coeffs (idx + 1) (by omega) (fun j hj => hz j (by omega))]
    congr 1
    omega

theorem zeroFill_self (idx : Nat) (coeffs : List Int)
    (hz : ∀ j, idx ≤ j → coeffs.getD j 0 = 0) : zeroFill coeffs idx = coeffs := by
  rw [zeroFill]
  split
  · rw [set_getD_self coeffs idx (hz idx (le_refl _))]
    exact zeroFill_self (idx + 1) coeffs (fun j hj => hz j (by omega))
  · rfl
termination_by 64 - idx
decreasing_by omega

theorem getD_take {α : Type} (l : List α) (n i : Nat) (d : α) (h : i < n) :
    (l.take n).getD i d = l.getD i d := by
  rw [List.getD_eq_getElem?_getD, List.getElem?_take_of_lt h, ← List.getD_eq_getElem?_getD]

theorem take_zero_region {coeffs : List Int} {idx m : Nat} (hlen : coeffs.length = 64)
    (hz : ∀ j, idx ≤ j → coeffs.getD j 0 = 0) (hm : idx + m ≤ 64) :
    coeffs.take (idx + m) = coeffs.take idx ++ List.replicate m (0 : Int) := by
  apply list_eq_of_getD (d := (0 : Int))
  · rw [List.length_take, List.length_append, List.length_take, List.length_replicate]
    omega
  · intro i hi
    rw [List.length_take] at hi
    rw [getD_take _ _ _ _ (by omega)]
    by_cases hlt : i < idx
    · rw [getD_append_left _ _ _ _ (by rw [List.length_take]; omega),
        getD_take _ _ _ _ hlt]
    · rw [getD_append_right _ _ _ _ (by rw [List.length_take]; omega)]
      have hti : (List.take idx coeffs).length = idx := by
        rw [List.length_take]
        omega
      rw [hti, hz i (by omega), getD_replicate, if_pos (by omega)]

theorem decACLoop_zrls : ∀ (m : Nat) (tail : List Sym) (coeffs : List Int) (idx : Nat),
    idx + 16 * m ≤ 64 → (∀ j, idx ≤ j → coeffs.getD j 0 = 0) →
    decACLoop (List.replicate m Sym.zrl ++ tail) coeffs idx =
      decACLoop tail coeffs (idx + 16 * m) := by
  intro m
  induction m with
  | zero => intro tail coeffs idx _ _; simp
  | succ m ih =>
    intro tail coeffs idx hle hz
    rw [List.replicate_succ, List.cons_append, decACLoop]
    rw [fillRun_spec 16 coeffs idx (by omega) hz]
    rw [ih tail coeffs (idx + 16) (by omega) (fun j hj => hz j (by omega))]
    congr 1
    omega

/-- Decoding the encoder's output for the AC tail writes back exactly the
pending zero run followed by the remaining coefficients. -/
theorem decACLoop_encACLoop : ∀ (rest : List Int) (run : Nat) (coeffs : List Int) (idx : Nat),
    idx + run + rest.length = 64 → coeffs.length = 64 →
    (∀ j, idx ≤ j → coeffs.getD j 0 = 0) →
    decACLoop (encACLoop rest run) coeffs idx =
      .ok (coeffs.take idx ++ List.replicate run 0 ++ rest) := by
  intro rest
  induction rest with
  | nil =>
    intro run coeffs idx hsum hlen hz
    rw [encACLoop]
    by_cases hrun : run > 0
    · rw [if_pos hrun]
      show decACLoop [Sym.eob] coeffs idx = _
      rw [decACLoop, zeroFill_self idx coeffs hz]
      rw [List.append_nil]
      have hreg := take_zero_region hlen hz (m := run) (by omega)
      rw [show idx + run = 64 from by simpa using hsum] at hreg
      rw [List.take_of_length_le (by omega)] at hreg
      rw [← hreg]
    · rw [if_neg hrun]
      show decACLoop [] coeffs idx = _
      rw [decACLoop, zeroFill_self idx coeffs hz]
      have hr0 : run = 0 := by omega
      subst hr0
      rw [List.replicate, List.append_nil, List.append_nil,
        List.take_of_length_le (by simp at hsum; omega)]
  | cons c rest ih =>
    intro run coeffs idx hsum hlen hz
    rw [List.length_cons] at hsum
    rw [encACLoop]
    by_cases hc : c = 0
    · rw [if_pos hc]
      rw [ih (run + 1) coeffs idx (by omega) hlen hz]
      subst hc
      rw [List.replicate_succ' run 0]
      simp [List.append_assoc]
    · rw [if_neg hc]
      simp only [zrlLoop_eq]
      rw [decACLoop_zrls (run / 16) _ coeffs idx (by omega) hz]
      rw [decACLoop]
      rw [fillRun_spec (run % 16) coeffs (idx + 16 * (run / 16)) (by omega)
        (fun j hj => hz j (by omega))]
      have hidx : idx + 16 * (run / 16) + run % 16 = idx + run := by omega
      rw [hidx, if_pos (by omega : idx + run < 64)]
      rw [ih 0 (coeffs.set (idx + run) c) (idx + run + 1) (by omega) (by simpa using hlen)
        (fun j hj => by
          rw [List.getD_eq_getElem?_getD, List.getElem?_set_ne (by omega),
            ← List.getD_eq_getElem?_getD]
          exact hz j (by omega))]
      have hkey : (coeffs.set (idx + run) c).take (idx + run + 1) =
          coeffs.take idx ++ List.replicate run 0 ++ [c] := by
        rw [List.set_take]
        have hreg := take_zero_region hlen hz (m := run + 1) (by omega)
        rw [show idx + run + 1 = idx + (run + 1) by omega, hreg]
        have hti : (List.take idx coeffs).length = idx := by
          rw [List.length_take]
          omega
        rw [List.set_append_right _ _ (by omega), hti]
        rw [show idx + run - idx = run by omega]
        rw [List.replicate_succ' run 0]
        rw [List.set_append_right _ _ (by rw [List.length_replicate])]
        rw [List.length_replicate, Nat.sub_self]
        rw [List.append_assoc]
        rfl
      rw [hkey]
      simp [List.append_assoc]

/-- C6.  RLE round trip: for every 64-coefficient block,
`decode_ac (encode_ac coeffs) = coeffs`. -/
theorem rle_roundtrip (coeffs : List Int) (h : coeffs.length = 64) :
    ∃ syms, encode_ac coeffs = .ok syms ∧ decode_ac syms = .ok coeffs := by
  refine ⟨Sym.dc (coeffs.getD 0 0) :: encACLoop (coeffs.drop 1) 0,
    by rw [encode_ac, if_pos h], ?_⟩
  rw [decode_ac]
  have hz : ∀ j, 1 ≤ j →
      ((List.replicate 64 (0 : Int)).set 0 (coeffs.getD 0 0)).getD j 0 = 0 := by
    intro j hj
    rw [List.getD_eq_getElem?_getD, List.getElem?_set_ne (by omega),
      ← List.getD_eq_getElem?_getD, getD_replicate]
    split <;> rfl
  rw [decACLoop_encACLoop (coeffs.drop 1) 0 _ 1
    (by rw [List.length_drop]; omega) (by simp) hz]
  have htake : ((List.replicate 64 (0 : Int)).set 0 (coeffs.getD 0 0)).take 1 =
      [coeffs.getD 0 0] := by
    rw [List.set_take]
    rfl
  rw [htake, List.replicate, List.append_nil]
  rw [getD_of_lt _ _ _ (by omega), List.singleton_append,
    ← List.drop_eq_getElem_cons (by omega), List.drop_zero]

/-- Witness for C6: a block with a zero run longer than 15, a negative
coefficient, and trailing zeros. -/
theorem rle_roundtrip_witness :
    ∃ syms, encode_ac ([5] ++ List.replicate 20 0 ++ [3] ++ List.replicate 30 0 ++
        [-7] ++ List.replicate 11 0) = .ok syms ∧
      decode_ac syms = .ok ([5] ++ List.replicate 20 0 ++ [3] ++ List.replicate 30 0 ++
        [-7] ++ List.replicate 11 0) :=
  rle_roundtrip _ (by simp)

/-! ## huffman.py: HuffmanTable, parse_dht, coefficient/symbol coding -/

deriving instance DecidableEq for Except

/-- A built `HuffmanTable`: `codes` maps a symbol to its `(code, bitlen)` and
`decode_map` maps the 16-bit left-aligned code `code <<< (16 - bitlen)` to
`(symbol, bitlen)`. -/
structure HuffmanTable where
  codes : List (Nat × (Nat × Nat))
  decode_map : List (Nat × (Nat × Nat))
deriving DecidableEq, Repr

/-- Running state of the `HuffmanTable.__init__` loops: the two dicts under
construction, the next code value, and the position in `symbols`. -/
structure HTState where
  codes : List (Nat × (Nat × Nat))
  decode_map : List (Nat × (Nat × Nat))
  code : Nat
  p : Nat
deriving DecidableEq, Repr

/-- Inner loop `for i in range(count)` of `HuffmanTable.__init__`: assign
consecutive codes of length `bitlen` to the next `count` symbols.  Reading
past the end of `symbols` is an `IndexError`, and a `bitlen` beyond 16 would
make `code << (16 - bitlen)` a negative-shift `ValueError` in Python. -/
def htInsertRun (symbols : List Nat) (bitlen : Nat) : Nat → HTState → Except Err HTState
  | 0, st => .ok st
  | count + 1, st =>
    if 16 < bitlen then .error (.valueError "negative shift count")
    else
      match symbols[st.p]? with
      | none => .error .indexError
      | some sym =>
        htInsertRun symbols bitlen count
          { codes := dictInsert st.codes sym (st.code, bitlen),
            decode_map := dictInsert st.decode_map (st.code <<< (16 - bitlen)) (sym, bitlen),
            code := st.code + 1,
            p := st.p + 1 }

/-- Outer loop `for bitlen, count in enumerate(lengths, start=1)` of
`HuffmanTable.__init__`, with the `code <<= 1` between lengths. -/
def htBuildLoop (symbols : List Nat) : List Nat → Nat → HTState → Except Err HTState
  | [], _, st => .ok st
  | count :: rest, bitlen, st =>
    match htInsertRun symbols bitlen count st with
    | .error e => .error e
    | .ok st1 => htBuildLoop symbols rest (bitlen + 1) { st1 with code := st1.code <<< 1 }

/-- The constructor `HuffmanTable(lengths, symbols)`. -/
def HuffmanTable.build (lengths symbols : List Nat) : Except Err HuffmanTable :=
  match htBuildLoop symbols lengths 1 ⟨[], [], 0, 0⟩ with
  | .error e => .error e
  | .ok st => .ok ⟨st.codes, st.decode_map⟩

/-- Method `HuffmanTable.encode(symbol)`: a plain dict lookup, `KeyError`
when the symbol has no code. -/
def HuffmanTable.encode (t : HuffmanTable) (symbol : Nat) : Except Err (Nat × Nat) :=
  match dictLookup t.codes symbol with
  | none => .error .keyError
  | some cl => .ok cl

/-- Loop `for length in range(1, 17)` of `HuffmanTable.decode`, with the
remaining iteration count as the structural argument (so `length` runs from
`17 - fuel` up to 16): read one bit, extend `code`, left-align it to 16 bits
using the number of bits read so far, and return on the first `decode_map`
hit; after 16 misses raise `ValueError`. -/
def HuffmanTable.decodeAux (t : HuffmanTable) :
    Nat → Nat → Nat → BitReader → Except Err (Nat × BitReader)
  | 0, _, _, _ => .error (.valueError "Invalid Huffman code")
  | fuel + 1, length, code, r =>
    match r.read_bit with
    | .error e => .error e
    | .ok (bit, r1) =>
      let code1 := (code <<< 1) ||| bit
      match dictLookup t.decode_map (code1 <<< (16 - length)) with
      | some sl => .ok (sl.1, r1)
      | none => t.decodeAux fuel (length + 1) code1 r1

/-- Method `HuffmanTable.decode(bitreader)`, also returning the advanced
reader (Python advances it in place). -/
def HuffmanTable.decode (t : HuffmanTable) (r : BitReader) : Except Err (Nat × BitReader) :=
  t.decodeAux 16 1 0 r

/-- C7: refuted as stated — the code has a bug.  `decode` probes `decode_map`
with the bits read so far left-aligned to 16 bits, but the lookup compares
aligned keys only and never checks that the stored code length matches the
number of bits read.  For the valid table with two codes of length 2
(lengths `[0,2,0,...,0]`, symbols `[10, 20]`) the canonical assignment is
`10 ↦ (0,2)`, `20 ↦ (1,2)`: it satisfies the feasibility condition (each
code fits in its length) and is prefix-free, yet after reading the single
bit `0` of symbol 20's codeword `01` the aligned key `0 <<< 15 = 0` already
matches the entry for code `(0,2)`, so decoding the bits written by
`encode(20)` returns symbol 10, not 20. -/
theorem huffman_decode_wrong_symbol :
    ∃ t, HuffmanTable.build [0, 2, 0, 0, 0, 0, 0, 0, 0, 0, 0, 0, 0, 0, 0, 0] [10, 20] =
        .ok t ∧
      (∀ p ∈ t.codes, p.2.1 < 2 ^ p.2.2) ∧
      (∀ p ∈ t.codes, ∀ q ∈ t.codes, p.1 ≠ q.1 →
        toBits p.2.2 p.2.1 ≠ (toBits q.2.2 q.2.1).take p.2.2) ∧
      t.encode 20 = .ok (1, 2) ∧
      t.decode ⟨(initWriter.write_bits 2 1).get_bytes, 0, 0⟩ = .ok (10, ⟨[64], 0, 1⟩) ∧
      (10 : Nat) ≠ 20 := by
  refine ⟨⟨[(10, (0, 2)), (20, (1, 2))], [(0, (10, 2)), (16384, (20, 2))]⟩, ?_⟩
  decide

/-! ## io_1.py: parse_jpeg -/

/-- Result dict of `io_1.parse_jpeg`. -/
structure ParseResult where
  segments : List (Nat × List Nat)
  quant_tables : List (Nat × List Int)
  huff_tables : List (Nat × List (List Nat))
  frame_header : Option (List Nat)
  scan_header : Option (List Nat)
  scan_data : List Nat
deriving DecidableEq, Repr

/-- Comprehension `[(raw[j] << 8) | raw[j+1] for j in range(0, count, 2)]` of
the DQT sub-parser, consuming `raw` two bytes at a time for the given number
of pairs; a missing byte is an `IndexError`. -/
def dqtRead16 : List Nat → Nat → Except Err (List Int)
  | _, 0 => .ok []
  | a :: b :: rest, k + 1 =>
    match dqtRead16 rest k with
    | .error e => .error e
    | .ok t => .ok ((((a <<< 8) ||| b : Nat) : Int) :: t)
  | _, _ + 1 => .error .indexError

/-- The `while i < len(payload)` DQT sub-parser of `parse_jpeg`: read the
precision/id byte, slice 64 one- or two-byte entries, and store the table
under its id. -/
def dqtLoop (payload : List Nat) (i : Nat) (qt : List (Nat × List Int)) :
    Except Err (List (Nat × List Int)) :=
  if h : i < payload.length then
    let pq_tq := payload.getD i 0
    let pq := pq_tq >>> 4
    let tq := pq_tq &&& 0x0F
    let entry_size := if pq ≠ 0 then 2 else 1
    let count := 64 * entry_size
    let raw := (payload.drop (i + 1)).take count
    match (if pq ≠ 0 then dqtRead16 raw 64 else .ok (raw.map (fun b => (b : Int)))) with
    | .error e => .error e
    | .ok table => dqtLoop payload (i + 1 + count) (dictInsert qt tq table)
  else .ok qt
termination_by payload.length - i
decreasing_by omega

/-- The `while ptr < len(data)` loop of `parse_jpeg`.  A byte other than
`0xFF` is scan data; otherwise the NEXT byte is unconditionally read as a
marker (`IndexError` past the end).  `EOI` records an empty segment and
breaks.  Any other marker reads a big-endian length (`struct.error` when
fewer than two bytes remain), slices `length - 2` payload bytes (clamped,
as a Python slice), records the segment, runs the DQT/DHT/SOF0/SOS side
effects, and continues at `ptr + 4 + length - 2`. -/
def parseLoop (data : List Nat) (ptr : Nat) (st : ParseResult) : Except Err ParseResult :=
  if h : ptr < data.length then
    let byte := data.getD ptr 0
    if byte ≠ 0xFF then
      parseLoop data (ptr + 1) { st with scan_data := st.scan_data ++ [byte] }
    else
      match data[ptr + 1]? with
      | none => .error .indexError
      | some marker =>
        if marker = EOI then .ok { st with segments := st.segments ++ [(marker, [])] }
        else if ptr + 4 ≤ data.length then
          let length := 256 * data.getD (ptr + 2) 0 + data.getD (ptr + 3) 0
          let payload := (data.drop (ptr + 4)).take (ptr + 4 + length - 2 - (ptr + 4))
          let st1 := { st with segments := st.segments ++ [(marker, payload)] }
          if marker = DQT then
            match dqtLoop payload 0 st1.quant_tables with
            | .error e => .error e
            | .ok qt => parseLoop data (ptr + 4 + length - 2) { st1 with quant_tables := qt }
          else if marker = DHT then
            let ht := dictInsert st1.huff_tables DHT
              (((dictLookup st1.huff_tables DHT).getD []) ++ [payload])
            parseLoop data (ptr + 4 + length - 2) { st1 with huff_tables := ht }
          else if marker = SOF0 then
            parseLoop data (ptr + 4 + length - 2) { st1 with frame_header := some payload }
          else if marker = SOS then
            parseLoop data (ptr + 4 + length - 2) { st1 with scan_header := some payload }
          else
            parseLoop data (ptr + 4 + length - 2) st1
        else .error .structError
  else .ok st
termination_by data.length - ptr
decreasing_by all_goals omega

/-- Body of `io_1.parse_jpeg` on the bytes read from the file: assert the
SOI signature, then scan. -/
def parse_jpeg_bytes (data : List Nat) : Except Err ParseResult :=
  if data.take 2 = [0xFF, 0xD8] then
    parseLoop data 2 ⟨[], [], [], none, none, []⟩
  else .error (.assertError "Not a valid JPEG (missing SOI)")

set_option maxHeartbeats 1000000 in
/-- C1: refuted as stated — the code has a bug.  On the file
`FF D8 AB FF 00 12 34 FF D9` the entropy-coded section contains the stuffed
pair `FF 00`, which per the claim (and the function's own docstring) should
be accumulated into `scan_data` with scanning continuing to the real `EOI`
marker.  Instead `parse_jpeg` treats ANY `0xFF` as a marker prefix: it
misreads the stuffed pair as marker `0x00`, consumes `12 34` as a bogus
segment length, swallows the rest of the file (including the real EOI) as
that segment's payload, and ends with `scan_data = [AB]` and no EOI
segment. -/
theorem parse_jpeg_stuffed_bytes_bug :
    ∃ res, parse_jpeg_bytes [0xFF, 0xD8, 0xAB, 0xFF, 0x00, 0x12, 0x34, 0xFF, 0xD9] =
        .ok res ∧
      res.scan_data = [0xAB] ∧
      res.segments = [(0x00, [0xFF, 0xD9])] ∧
      res.scan_data ≠ [0xAB, 0xFF, 0x00, 0x12, 0x34] ∧
      (0xD9, ([] : List Nat)) ∉ res.segments := by
  refine ⟨⟨[(0x00, [0xFF, 0xD9])], [], [], none, none, [0xAB]⟩, ?_, rfl, rfl,
    by decide, by decide⟩
  simp [parse_jpeg_bytes, parseLoop, List.getD, EOI, DQT, DHT, SOF0, SOS]

/-! ## compressor.py: rebuild_dqt_payload, build_segment, rebuild_jpeg -/

/-- Evaluation of a Python list comprehension whose body may raise: collect
the results in order, stopping at the first error. -/
def collectE {α β : Type} (f : α → Except Err β) : List α → Except Err (List β)
  | [] => .ok []
  | a :: l =>
    match f a with
    | .error e => .error e
    | .ok b =>
      match collectE f l with
      | .error e => .error e
      | .ok t => .ok (b :: t)

/-- Python `l[i]` for a nonnegative index: `IndexError` out of range. -/
def pyIndex {α : Type} (l : List α) (i : Nat) : Except Err α :=
  match l[i]? with
  | none => .error .indexError
  | some v => .ok v

/-- Comprehension `[mat[i][j] for i in range(8) for j in range(8)]` of
`rebuild_dqt_payload` (no shape check: a short matrix is an `IndexError`). -/
def matFlatten8 (mat : List (List Int)) : Except Err (List Int) :=
  collectE (fun p =>
    match pyIndex mat p.1 with
    | .error e => .error e
    | .ok row => pyIndex row p.2)
    ((List.range 8).flatMap (fun i => (List.range 8).map (fun j => (i, j))))

/-- `compressor.rebuild_dqt_payload(scaled_qtables)`: for each `(tid, mat)`
append the id byte, flatten the matrix row-major, reorder along
`ZIGZAG_ORDER` and append the 64 entries as bytes (`bytearray.extend`
raises `ValueError` on an entry outside `[0, 256)`). -/
def rebuild_dqt_payload : List (Nat × List (List Int)) → Except Err (List Nat)
  | [] => .ok []
  | (tid, mat) :: rest =>
    match matFlatten8 mat with
    | .error e => .error e
    | .ok flat =>
      match collectE (fun idx => pyIndex flat idx) ZIGZAG_ORDER with
      | .error e => .error e
      | .ok zz =>
        match collectE (fun (v : Int) =>
            if 0 ≤ v ∧ v < 256 then .ok v.toNat
            else .error (.valueError "byte must be in range(0, 256)")) zz with
        | .error e => .error e
        | .ok zb =>
          match rebuild_dqt_payload rest with
          | .error e => .error e
          | .ok tail => .ok ([tid &&& 0x0F] ++ zb ++ tail)

/-- `compressor.build_segment(marker, payload)`: `FF`, marker byte
(`ValueError` if not a byte), big-endian length including its own two bytes
(`struct.error` if it does not fit `>H`), then the payload. -/
def build_segment (marker : Nat) (payload : List Nat) : Except Err (List Nat) :=
  if 256 ≤ marker then .error (.valueError "bytes must be in range(0, 256)")
  else
    let length := payload.length + 2
    if 65536 ≤ length then .error .structError
    else .ok ([0xFF, marker] ++ [(length >>> 8) &&& 0xFF, length &&& 0xFF] ++ payload)

/-- A sequence of `out.write(build_segment(m, p))` calls: the bytes written
before the first failing `build_segment`, and that error if any (writes
already made stay in the file). -/
def segWrites : List (Nat × List Nat) → List Nat × Option Err
  | [] => ([], none)
  | (m, p) :: rest =>
    match build_segment m p with
    | .error e => ([], some e)
    | .ok b =>
      let r := segWrites rest
      (b ++ r.1, r.2)

/-- Sequencing of two write phases: if the first errored nothing further is
written, else its bytes are followed by the second phase's outcome. -/
def wThen (a b : List Nat × Option Err) : List Nat × Option Err :=
  match a.2 with
  | some _ => a
  | none => (a.1 ++ b.1, b.2)

/-- One `out.write(...)` of a computed segment. -/
def wSeg (r : Except Err (List Nat)) : List Nat × Option Err :=
  match r with
  | .error e => ([], some e)
  | .ok b => (b, none)

/-- `compressor.rebuild_jpeg` as the byte stream it writes to `out_path`
(paired with the error aborting the remaining writes, if any): SOI; APPn/COM
segments; the new DQT; the frame header; all DHT segments; any other
pre-scan segments except SOI/APP0/DQT/the frame marker/DHT; SOS (`scan_payload`
is `None` when the input had no SOS header: `len(None)` is a `TypeError`);
the new entropy bytes; EOI. -/
def rebuild_jpeg (segments : List (Nat × List Nat)) (frame_marker : Nat)
    (frame_payload : List Nat) (scan_payload : Option (List Nat))
    (scaled_qtables : List (Nat × List (List Int))) (new_scan : List Nat) :
    List Nat × Option Err :=
  wThen ([0xFF, SOI], none)
  (wThen (segWrites (segments.filter (fun p => (APP0 ≤ p.1 ∧ p.1 ≤ 0xEF) ∨ p.1 = 0xFE)))
  (wThen (wSeg (match rebuild_dqt_payload scaled_qtables with
    | .error e => .error e
    | .ok pl => build_segment DQT pl))
  (wThen (wSeg (build_segment frame_marker frame_payload))
  (wThen (segWrites (segments.filter (fun p => p.1 = DHT)))
  (wThen (segWrites (segments.filter (fun p => p.1 < SOS ∧ p.1 ≠ SOI ∧ p.1 ≠ APP0 ∧
      p.1 ≠ DQT ∧ p.1 ≠ frame_marker ∧ p.1 ≠ DHT)))
  (wThen (wSeg (match scan_payload with
    | none => .error .typeError
    | some sp => build_segment SOS sp))
  (wThen (new_scan, none)
  ([0xFF, EOI], none))))))))

/-- C3: refuted as stated — the code has a bug.  `parse_jpeg` records the
end-of-image marker as a segment `(EOI, b"")` (io_1.py lines 42–44), and step
6 of `rebuild_jpeg` re-emits every segment with marker `< SOS` that is not in
`(SOI, APP0, DQT, frame_marker, DHT)` — a set that does not exclude EOI
(`0xD9 < 0xDA`).  So for the parsed segment list `[(EOI, b"")]` the rebuilt
stream contains the bogus four-byte segment `FF D9 00 02` (a premature EOI)
between the Huffman tables and the scan header, where the claim requires no
EOI-derived segment to appear. -/
theorem rebuild_jpeg_emits_parsed_eoi :
    rebuild_jpeg [(EOI, [])] SOF0 [] (some []) [] [] =
      ([0xFF, 0xD8] ++ [0xFF, 0xDB, 0x00, 0x02] ++ [0xFF, 0xC0, 0x00, 0x02] ++
        [0xFF, 0xD9, 0x00, 0x02] ++ [0xFF, 0xDA, 0x00, 0x02] ++ [0xFF, 0xD9], none) ∧
    rebuild_jpeg [(EOI, [])] SOF0 [] (some []) [] [] ≠
      ([0xFF, 0xD8] ++ [0xFF, 0xDB, 0x00, 0x02] ++ [0xFF, 0xC0, 0x00, 0x02] ++
        [0xFF, 0xDA, 0x00, 0x02] ++ [0xFF, 0xD9], none) := by
  decide

/-! ## huffman.py: parse_dht and the symbol-level coders -/

/-- The `while i < len(payload)` loop of `huffman.parse_dht`: read the
class/id byte, slice 16 length counts and `sum(lengths)` symbols, build the
table, and store it in the DC or AC dict. -/
def parseDhtLoop (payload : List Nat) (i : Nat)
    (dc ac : List (Nat × HuffmanTable)) :
    Except Err (List (Nat × HuffmanTable) × List (Nat × HuffmanTable)) :=
  if h : i < payload.length then
    let tc_th := payload.getD i 0
    let table_class := tc_th >>> 4
    let table_id := tc_th &&& 0x0F
    let lengths := (payload.drop (i + 1)).take 16
    let total_syms := lengths.foldl (fun a b => a + b) 0
    let symbols := (payload.drop (i + 17)).take total_syms
    match HuffmanTable.build lengths symbols with
    | .error e => .error e
    | .ok table =>
      if table_class = 0 then
        parseDhtLoop payload (i + 17 + total_syms) (dictInsert dc table_id table) ac
      else
        parseDhtLoop payload (i + 17 + total_syms) dc (dictInsert ac table_id table)
  else .ok (dc, ac)
termination_by payload.length - i
decreasing_by all_goals omega

/-- `huffman.parse_dht(payload)`: the `(dc_tables, ac_tables)` dicts. -/
def parse_dht (payload : List Nat) :
    Except Err (List (Nat × HuffmanTable) × List (Nat × HuffmanTable)) :=
  parseDhtLoop payload 0 [] []

/-- `huffman.encode_coefficient(value, bitwriter)`: write the JPEG amplitude
bits of `value` (for a negative value the bits of `2^size + value - 1`) and
return the written-to writer with the bit count (Python mutates the writer
and returns the size). -/
def encode_coefficient (value : Int) (bw : BitWriter) : BitWriter × Nat :=
  if value = 0 then (bw, 0)
  else
    let size := bitLen value.natAbs
    if value < 0 then
      let em : Int := ((1 <<< size : Nat) : Int) + value - 1
      (bw.write_bits size em.toNat, size)
    else (bw.write_bits size value.toNat, size)

/-- The `for sym in symbols[1:]` loop of `huffman.encode_symbols`: ZRL and
EOB map to the AC symbols `0xF0` and `0x00` (EOB stops the loop); an
`(run, size, amp)` tuple maps to the byte `run << 4 | size` followed by the
amplitude bits; a stray 2-tuple such as `("DC", v)` fails the 3-way tuple
unpacking (`ValueError`). -/
def encSymsAC (ac_table : HuffmanTable) : List Sym → BitWriter → Except Err BitWriter
  | [], bw => .ok bw
  | s :: rest, bw =>
    match s with
    | Sym.zrl =>
      match ac_table.encode 0xF0 with
      | .error e => .error e
      | .ok (code, length) => encSymsAC ac_table rest (bw.write_bits length code)
    | Sym.eob =>
      match ac_table.encode 0x00 with
      | .error e => .error e
      | .ok (code, length) => .ok (bw.write_bits length code)
    | Sym.ac run size amp =>
      let tag_byte := (run <<< 4) ||| size
      match ac_table.encode tag_byte with
      | .error e => .error e
      | .ok (code, length) =>
        encSymsAC ac_table rest (encode_coefficient amp (bw.write_bits length code)).1
    | Sym.dc _ => .error (.valueError "not enough values to unpack")

/-- `huffman.encode_symbols(symbols, dc_table, ac_table, bitwriter)`: the
first symbol must be a `("DC", value)` pair (an empty list is an
`IndexError`, a 3-tuple fails the 2-way unpacking, a `("ZRL", 0)` or
`("EOB", 0)` pair fails the `assert tag == "DC"`); write its category code
and amplitude, then the AC symbols. -/
def encode_symbols (symbols : List Sym) (dc_table ac_table : HuffmanTable)
    (bw : BitWriter) : Except Err BitWriter :=
  match symbols with
  | [] => .error .indexError
  | first :: rest =>
    match first with
    | Sym.dc dc_val =>
      let prev_size := if dc_val ≠ 0 then bitLen dc_val.natAbs else 0
      match dc_table.encode prev_size with
      | .error e => .error e
      | .ok (code, length) =>
        encSymsAC ac_table rest (encode_coefficient dc_val (bw.write_bits length code)).1
    | Sym.ac _ _ _ => .error (.valueError "too many values to unpack")
    | _ => .error (.assertError "tag == DC")

/-- Amplitude read shared by `huffman.decode_symbols`: read `size` bits and
flip the value negative when its most significant bit is 0. -/
def readAmplitude (size : Nat) (br : BitReader) : Except Err (Int × BitReader) :=
  if size > 0 then
    match br.read_bits size with
    | .error e => .error e
    | .ok (bits, br1) =>
      if bits < 1 <<< (size - 1) then
        .ok ((bits : Int) - (((1 <<< size : Nat) : Int) - 1), br1)
      else .ok ((bits : Int), br1)
  else .ok ((0 : Int), br)

/-- The `while count < 64` AC loop of `huffman.decode_symbols`: decode a
run/size byte; `0x00` appends EOB and stops, `0xF0` appends ZRL and skips 16,
anything else reads the amplitude and advances by `run + 1`. -/
def decodeACSymsLoop (ac_table : HuffmanTable) (br : BitReader) (count : Nat) :
    Except Err (List Sym × BitReader) :=
  if count < 64 then
    match ac_table.decode br with
    | .error e => .error e
    | .ok (rs, br1) =>
      if rs = 0x00 then .ok ([Sym.eob], br1)
      else if rs = 0xF0 then
        match decodeACSymsLoop ac_table br1 (count + 16) with
        | .error e => .error e
        | .ok p => .ok (Sym.zrl :: p.1, p.2)
      else
        let run := rs >>> 4
        let size := rs &&& 0x0F
        match readAmplitude size br1 with
        | .error e => .error e
        | .ok (amp, br2) =>
          match decodeACSymsLoop ac_table br2 (count + run + 1) with
          | .error e => .error e
          | .ok p => .ok (Sym.ac run size amp :: p.1, p.2)
  else .ok ([], br)
termination_by 64 - count
decreasing_by all_goals omega

/-- `huffman.decode_symbols(bitreader, dc_table, ac_table)`: one MCU's worth
of symbols — the DC category and amplitude, then the AC loop (also returning
the advanced reader, which Python mutates in place). -/
def decode_symbols (br : BitReader) (dc_table ac_table : HuffmanTable) :
    Except Err (List Sym × BitReader) :=
  match dc_table.decode br with
  | .error e => .error e
  | .ok (cat, br1) =>
    match readAmplitude cat br1 with
    | .error e => .error e
    | .ok (amplitude, br2) =>
      match decodeACSymsLoop ac_table br2 1 with
      | .error e => .error e
      | .ok p => .ok (Sym.dc amplitude :: p.1, p.2)

/-! ## Reader progress.  The `while True ... except EOFError` loop of
`compress` terminates because every successful `decode_symbols` consumes at
least one bit; these lemmas measure that progress. -/

/-- Absolute bit position of a reader. -/
def bpos (r : BitReader) : Nat := 8 * r.bytepos + r.bitpos

/-- A successful `read_bit` from a reader with an in-range partial-byte
position keeps the data, stays in range, and strictly advances the bit
position while staying within one byte past the end. -/
theorem read_bit_adv {r : BitReader} {p : Nat × BitReader}
    (hn : r.bitpos < 8) (h : r.read_bit = .ok p) :
    p.2.data = r.data ∧ p.2.bitpos < 8 ∧ bpos r < bpos p.2 ∧
      bpos p.2 ≤ 8 * r.data.length + 8 := by
  cases hg : r.data[r.bytepos]? with
  | none =>
    simp only [BitReader.read_bit, hg] at h
    exact Except.noConfusion h
  | some byte =>
    have hb : r.bytepos < r.data.length := by
      by_contra hc
      rw [List.getElem?_eq_none (by omega)] at hg
      cases hg
    simp only [BitReader.read_bit, hg] at h
    split at h
    · split at h <;>
        (cases h;
          exact ⟨rfl, by simp only []; omega, by simp only [bpos]; omega,
            by simp only [bpos]; omega⟩)
    · cases h
      exact ⟨rfl, by simp only []; omega, by simp only [bpos]; omega,
        by simp only [bpos]; omega⟩

/-- `readBitsAux` keeps the data and never moves the reader backwards. -/
theorem readBitsAux_adv : ∀ {n v : Nat} {r : BitReader} {p : Nat × BitReader},
    r.bitpos < 8 → readBitsAux n v r = .ok p →
    p.2.data = r.data ∧ p.2.bitpos < 8 ∧ bpos r ≤ bpos p.2 ∧
      (bpos p.2 ≤ 8 * r.data.length + 8 ∨ bpos p.2 = bpos r) := by
  intro n
  induction n with
  | zero =>
    intro v r p hn h
    simp only [readBitsAux] at h
    cases h
    exact ⟨rfl, hn, le_refl _, Or.inr rfl⟩
  | succ n ih =>
    intro v r p hn h
    cases hrb : r.read_bit with
    | error e =>
      simp only [readBitsAux, hrb] at h
      exact Except.noConfusion h
    | ok q =>
      obtain ⟨bit, r1⟩ := q
      simp only [readBitsAux, hrb] at h
      obtain ⟨hd, hn1, hlt, hb⟩ := read_bit_adv hn hrb
      obtain ⟨hd2, hn2, hle2, hb2⟩ := ih hn1 h
      rw [hd] at hb2
      refine ⟨hd2.trans hd, hn2, by omega, Or.inl (by omega)⟩

/-- `HuffmanTable.decodeAux` keeps the data and strictly advances. -/
theorem decodeAux_adv : ∀ {fuel len code : Nat} {t : HuffmanTable} {r : BitReader}
    {p : Nat × BitReader}, r.bitpos < 8 → t.decodeAux fuel len code r = .ok p →
    p.2.data = r.data ∧ p.2.bitpos < 8 ∧ bpos r < bpos p.2 ∧
      bpos p.2 ≤ 8 * r.data.length + 8 := by
  intro fuel
  induction fuel with
  | zero =>
    intro len code t r p hn h
    simp only [HuffmanTable.decodeAux] at h
    exact Except.noConfusion h
  | succ fuel ih =>
    intro len code t r p hn h
    cases hrb : r.read_bit with
    | error e =>
      simp only [HuffmanTable.decodeAux, hrb] at h
      exact Except.noConfusion h
    | ok q =>
      obtain ⟨bit, r1⟩ := q
      simp only [HuffmanTable.decodeAux, hrb] at h
      obtain ⟨hd, hn1, hlt, hb⟩ := read_bit_adv hn hrb
      cases hdl : dictLookup t.decode_map (((code <<< 1) ||| bit) <<< (16 - len)) with
      | some sl =>
        rw [hdl] at h
        cases h
        exact ⟨hd, hn1, hlt, hb⟩
      | none =>
        rw [hdl] at h
        obtain ⟨hd2, hn2, hlt2, hb2⟩ := ih hn1 h
        rw [hd] at hb2
        exact ⟨hd2.trans hd, hn2, by omega, hb2⟩

/-- `HuffmanTable.decode` keeps the data and strictly advances. -/
theorem decode_adv {t : HuffmanTable} {r : BitReader} {p : Nat × BitReader}
    (hn : r.bitpos < 8) (h : t.decode r = .ok p) :
    p.2.data = r.data ∧ p.2.bitpos < 8 ∧ bpos r < bpos p.2 ∧
      bpos p.2 ≤ 8 * r.data.length + 8 :=
  decodeAux_adv hn h

/-- `readAmplitude` keeps the data and never moves the reader backwards. -/
theorem readAmplitude_adv {size : Nat} {r : BitReader} {p : Int × BitReader}
    (hn : r.bitpos < 8) (h : readAmplitude size r = .ok p) :
    p.2.data = r.data ∧ p.2.bitpos < 8 ∧ bpos r ≤ bpos p.2 ∧
      (bpos p.2 ≤ 8 * r.data.length + 8 ∨ bpos p.2 = bpos r) := by
  by_cases hs : size > 0
  · simp only [readAmplitude, if_pos hs] at h
    cases hrb : r.read_bits size with
    | error e => rw [hrb] at h; exact Except.noConfusion h
    | ok q =>
      obtain ⟨bits, r1⟩ := q
      simp only [hrb] at h
      have hadv := readBitsAux_adv (n := size) (v := 0) hn hrb
      have hd : r1.data = r.data := hadv.1
      have hn1 : r1.bitpos < 8 := hadv.2.1
      have hle : bpos r ≤ bpos r1 := hadv.2.2.1
      have hb : bpos r1 ≤ 8 * r.data.length + 8 ∨ bpos r1 = bpos r := hadv.2.2.2
      by_cases hlt : bits < 1 <<< (size - 1)
      · rw [if_pos hlt] at h
        cases h
        exact ⟨hd, hn1, hle, hb⟩
      · rw [if_neg hlt] at h
        cases h
        exact ⟨hd, hn1, hle, hb⟩
  · simp only [readAmplitude, if_neg hs] at h
    cases h
    exact ⟨rfl, hn, le_refl _, Or.inr rfl⟩

set_option maxHeartbeats 1000000 in
/-- Lemma: `decodeACSymsLoop` keeps the data and never moves the reader backwards. -/
theorem decodeACSymsLoop_adv {t : HuffmanTable} {br : BitReader} {count : Nat}
    {p : List Sym × BitReader} (hn : br.bitpos < 8)
    (h : decodeACSymsLoop t br count = .ok p) :
    p.2.data = br.data ∧ p.2.bitpos < 8 ∧ bpos br ≤ bpos p.2 ∧
      (bpos p.2 ≤ 8 * br.data.length + 8 ∨ bpos p.2 = bpos br) := by
  by_cases hc : count < 64
  · rw [decodeACSymsLoop] at h
    rw [if_pos hc] at h
    cases hdec : t.decode br with
    | error e => simp only [hdec] at h; exact Except.noConfusion h
    | ok q =>
      obtain ⟨rs, br1⟩ := q
      simp only [hdec] at h
      have hadv := decode_adv hn hdec
      have hd : br1.data = br.data := hadv.1
      have hn1 : br1.bitpos < 8 := hadv.2.1
      have hlt : bpos br < bpos br1 := hadv.2.2.1
      have hb : bpos br1 ≤ 8 * br.data.length + 8 := hadv.2.2.2
      by_cases h0 : rs = 0
      · rw [if_pos h0] at h
        cases h
        exact ⟨hd, hn1, le_of_lt hlt, Or.inl hb⟩
      · rw [if_neg h0] at h
        by_cases hF : rs = 0xF0
        · rw [if_pos hF] at h
          cases hrec : decodeACSymsLoop t br1 (count + 16) with
          | error e => simp only [hrec] at h; exact Except.noConfusion h
          | ok q2 =>
            simp only [hrec] at h
            cases h
            have hadv2 := decodeACSymsLoop_adv hn1 hrec
            have hd2 : q2.2.data = br.data := hadv2.1.trans hd
            have hn2 : q2.2.bitpos < 8 := hadv2.2.1
            have hle2 : bpos br1 ≤ bpos q2.2 := hadv2.2.2.1
            have hb2 : bpos q2.2 ≤ 8 * br1.data.length + 8 ∨ bpos q2.2 = bpos br1 :=
              hadv2.2.2.2
            rw [hd] at hb2
            have h3 : bpos br ≤ bpos q2.2 := by omega
            have h4 : bpos q2.2 ≤ 8 * br.data.length + 8 := by omega
            exact ⟨hd2, hn2, h3, Or.inl h4⟩
        · rw [if_neg hF] at h
          cases hamp : readAmplitude (rs &&& 0x0F) br1 with
          | error e => simp only [hamp] at h; exact Except.noConfusion h
          | ok q2 =>
            obtain ⟨amp, br2⟩ := q2
            simp only [hamp] at h
            have hadv2 := readAmplitude_adv hn1 hamp
            have hd2 : br2.data = br.data := hadv2.1.trans hd
            have hn2 : br2.bitpos < 8 := hadv2.2.1
            have hle2 : bpos br1 ≤ bpos br2 := hadv2.2.2.1
            have hb2 : bpos br2 ≤ 8 * br1.data.length + 8 ∨ bpos br2 = bpos br1 :=
              hadv2.2.2.2
            rw [hd] at hb2
            cases hrec : decodeACSymsLoop t br2 (count + (rs >>> 4) + 1) with
            | error e => simp only [hrec] at h; exact Except.noConfusion h
            | ok q3 =>
              simp only [hrec] at h
              cases h
              have hadv3 := decodeACSymsLoop_adv hn2 hrec
              have hd3 : q3.2.data = br.data := hadv3.1.trans hd2
              have hn3 : q3.2.bitpos < 8 := hadv3.2.1
              have hle3 : bpos br2 ≤ bpos q3.2 := hadv3.2.2.1
              have hb3 : bpos q3.2 ≤ 8 * br2.data.length + 8 ∨ bpos q3.2 = bpos br2 :=
                hadv3.2.2.2
              rw [hd2] at hb3
              have h3 : bpos br ≤ bpos q3.2 := by omega
              have h4 : bpos q3.2 ≤ 8 * br.data.length + 8 := by omega
              exact ⟨hd3, hn3, h3, Or.inl h4⟩
  · rw [decodeACSymsLoop] at h
    rw [if_neg hc] at h
    cases h
    exact ⟨rfl, hn, le_refl _, Or.inr rfl⟩
termination_by 64 - count
decreasing_by all_goals omega

/-- A successful `decode_symbols` keeps the data and strictly advances the
reader (the DC decode always reads at least one bit). -/
theorem decode_symbols_adv {br : BitReader} {dc ac : HuffmanTable}
    {p : List Sym × BitReader} (hn : br.bitpos < 8)
    (h : decode_symbols br dc ac = .ok p) :
    p.2.data = br.data ∧ p.2.bitpos < 8 ∧ bpos br < bpos p.2 ∧
      bpos p.2 ≤ 8 * br.data.length + 8 := by
  unfold decode_symbols at h
  cases hdec : dc.decode br with
  | error e => simp only [hdec] at h; exact Except.noConfusion h
  | ok q =>
    obtain ⟨cat, br1⟩ := q
    simp only [hdec] at h
    have hadv := decode_adv hn hdec
    have hd : br1.data = br.data := hadv.1
    have hn1 : br1.bitpos < 8 := hadv.2.1
    have hlt : bpos br < bpos br1 := hadv.2.2.1
    have hb : bpos br1 ≤ 8 * br.data.length + 8 := hadv.2.2.2
    cases hamp : readAmplitude cat br1 with
    | error e => simp only [hamp] at h; exact Except.noConfusion h
    | ok q2 =>
      obtain ⟨amplitude, br2⟩ := q2
      simp only [hamp] at h
      have hadv2 := readAmplitude_adv hn1 hamp
      have hd2 : br2.data = br.data := hadv2.1.trans hd
      have hn2 : br2.bitpos < 8 := hadv2.2.1
      have hle2 : bpos br1 ≤ bpos br2 := hadv2.2.2.1
      have hb2 : bpos br2 ≤ 8 * br1.data.length + 8 ∨ bpos br2 = bpos br1 := hadv2.2.2.2
      rw [hd] at hb2
      cases hac : decodeACSymsLoop ac br2 1 with
      | error e => simp only [hac] at h; exact Except.noConfusion h
      | ok q3 =>
        simp only [hac] at h
        cases h
        have hadv3 := decodeACSymsLoop_adv hn2 hac
        have hd3 : q3.2.data = br.data := hadv3.1.trans hd2
        have hn3 : q3.2.bitpos < 8 := hadv3.2.1
        have hle3 : bpos br2 ≤ bpos q3.2 := hadv3.2.2.1
        have hb3 : bpos q3.2 ≤ 8 * br2.data.length + 8 ∨ bpos q3.2 = bpos br2 :=
          hadv3.2.2.2
        rw [hd2] at hb3
        have h3 : bpos br < bpos q3.2 := by omega
        have h4 : bpos q3.2 ≤ 8 * br.data.length + 8 := by omega
        exact ⟨hd3, hn3, h3, h4⟩

/-! ## compressor.py: compress -/

/-- Python `dict.update`: insert the new dict's pairs in their order. -/
def dictUpdate {α : Type} (d upd : List (Nat × α)) : List (Nat × α) :=
  upd.foldl (fun acc kv => dictInsert acc kv.1 kv.2) d

/-- Step 3 of `compress`: `for m, p in segments: if m == DHT:
dt, at = parse_dht(p); dc_tables.update(dt); ac_tables.update(at)`. -/
def dhtFoldLoop :
    List (Nat × List Nat) → List (Nat × HuffmanTable) → List (Nat × HuffmanTable) →
    Except Err (List (Nat × HuffmanTable) × List (Nat × HuffmanTable))
  | [], dc, ac => .ok (dc, ac)
  | (m, pl) :: rest, dc, ac =>
    if m = DHT then
      match parse_dht pl with
      | .error e => .error e
      | .ok p => dhtFoldLoop rest (dictUpdate dc p.1) (dictUpdate ac p.2)
    else dhtFoldLoop rest dc ac

/-- Step 4 of `compress`: `while True: all_syms.append(decode_symbols(br,
dc_tables[0], ac_tables[0]))` with only `EOFError` caught.  The table
lookups happen on every iteration (`KeyError` when id 0 is absent); the
loop terminates because each successful `decode_symbols` consumes at least
one bit, which is the invariant carried by the `hn` argument. -/
def decodeAllLoop (dc_tables ac_tables : List (Nat × HuffmanTable)) (br : BitReader)
    (hn : br.bitpos < 8) (acc : List (List Sym)) : Except Err (List (List Sym)) :=
  match dictLookup dc_tables 0 with
  | none => .error .keyError
  | some dc =>
    match dictLookup ac_tables 0 with
    | none => .error .keyError
    | some ac =>
      match hds : decode_symbols br dc ac with
      | .error .eof => .ok acc
      | .error e => .error e
      | .ok p =>
        decodeAllLoop dc_tables ac_tables p.2 (decode_symbols_adv hn hds).2.1 (acc ++ [p.1])
termination_by 8 * br.data.length + 9 - bpos br
decreasing_by
  obtain ⟨hd, hn2, hlt, hb⟩ := decode_symbols_adv hn hds
  rw [hd]
  omega

/-- In-memory file system: path to contents. -/
def fsLookup : List (String × List Nat) → String → Option (List Nat)
  | [], _ => none
  | (k, v) :: rest, path => if k = path then some v else fsLookup rest path

/-- `open(path, "wb")` followed by writing `data`: replace or append. -/
def fsWrite (fs : List (String × List Nat)) (path : String) (data : List Nat) :
    List (String × List Nat) :=
  match fs with
  | [] => [(path, data)]
  | (k, v) :: rest =>
    if k = path then (path, data) :: rest else (k, v) :: fsWrite rest path data

/-- `io_1.parse_jpeg(path)`: read the file (`FileNotFoundError` when absent)
and parse its bytes. -/
def parse_jpeg (path : String) (fs : List (String × List Nat)) : Except Err ParseResult :=
  match fsLookup fs path with
  | none => .error .fileNotFound
  | some data => parse_jpeg_bytes data

/-- Python `d[k]` on a dict: `KeyError` when absent. -/
def kLookup {α : Type} (d : List (Nat × α)) (k : Nat) : Except Err α :=
  match dictLookup d k with
  | none => .error .keyError
  | some v => .ok v

/-- Step 6 of `compress`: for each decoded MCU, RLE-decode, un-zigzag,
dequantize with table 0 of the original Q-tables, requantize with table 0
of the scaled ones, zigzag, RLE-encode, and Huffman-encode into the shared
writer (the dict lookups recur on every iteration, as in the source). -/
def reencodeLoop (orig_qtables : List (Nat × List Int))
    (scaled_qtables : List (Nat × List (List Int)))
    (dc_tables ac_tables : List (Nat × HuffmanTable)) :
    List (List Sym) → BitWriter → Except Err BitWriter
  | [], bw => .ok bw
  | syms :: rest, bw =>
    match decode_ac syms with
    | .error e => .error e
    | .ok coeffs =>
      match inverse_zigzag coeffs with
      | .error e => .error e
      | .ok qblk =>
        match kLookup orig_qtables 0 with
        | .error e => .error e
        | .ok orig0 =>
          match inverse_zigzag orig0 with
          | .error e => .error e
          | .ok origMat =>
            let deq := dequantize_block qblk origMat
            match kLookup scaled_qtables 0 with
            | .error e => .error e
            | .ok scaled0 =>
              match quantize_block deq scaled0 with
              | .error e => .error e
              | .ok rq =>
                match zigzag_order rq with
                | .error e => .error e
                | .ok zz =>
                  match encode_ac zz with
                  | .error e => .error e
                  | .ok new_syms =>
                    match kLookup dc_tables 0 with
                    | .error e => .error e
                    | .ok dc =>
                      match kLookup ac_tables 0 with
                      | .error e => .error e
                      | .ok ac =>
                        match encode_symbols new_syms dc ac bw with
                        | .error e => .error e
                        | .ok bw1 =>
                          reencodeLoop orig_qtables scaled_qtables dc_tables ac_tables
                            rest bw1

/-- Steps 1–6 of `compressor.compress` — everything before the final
`rebuild_jpeg` call, none of which touches the output path: parse the input
file, locate the frame header (`next(...)` raises `StopIteration` when no
SOFx segment exists), fold the DHT segments into table dicts, decode all
blocks, scale the Q-tables, and re-encode the scan.  Returns the arguments
of the rebuild step. -/
def compressPrep (input_path : String) (quality : Int) (fs : List (String × List Nat)) :
    Except Err (List (Nat × List Nat) × Nat × List Nat × Option (List Nat) ×
      List (Nat × List (List Int)) × List Nat) :=
  match parse_jpeg input_path fs with
  | .error e => .error e
  | .ok data =>
    match data.segments.find? (fun p =>
        0xC0 ≤ p.1 ∧ p.1 ≤ 0xCF ∧ p.1 ≠ DHT ∧ p.1 ≠ SOS) with
    | none => .error .stopIteration
    | some fr =>
      match dhtFoldLoop data.segments [] [] with
      | .error e => .error e
      | .ok tabs =>
        match decodeAllLoop tabs.1 tabs.2 ⟨data.scan_data, 0, 0⟩ (by norm_num) [] with
        | .error e => .error e
        | .ok all_syms =>
          match build_scaled_qtables data.quant_tables quality with
          | .error e => .error e
          | .ok scaled =>
            match reencodeLoop data.quant_tables scaled tabs.1 tabs.2 all_syms
                initWriter with
            | .error e => .error e
            | .ok bw =>
              .ok (data.segments, fr.1, fr.2, data.scan_header, scaled, bw.get_bytes)

/-- `compressor.compress(input_path, output_path, quality)` over the
in-memory file system: steps 1–6 are pure; only the final `rebuild_jpeg`
step opens `output_path` for writing (writing whatever bytes it produced
even when it fails partway, as `with open(...)` does). -/
def compress (input_path output_path : String) (quality : Int)
    (fs : List (String × List Nat)) : Except Err Unit × List (String × List Nat) :=
  match compressPrep input_path quality fs with
  | .error e => (.error e, fs)
  | .ok prep =>
    match rebuild_jpeg prep.1 prep.2.1 prep.2.2.1 prep.2.2.2.1 prep.2.2.2.2.1
        prep.2.2.2.2.2 with
    | (bytes, none) => (.ok (), fsWrite fs output_path bytes)
    | (bytes, some e) => (.error e, fsWrite fs output_path bytes)

/-- C9: confirmed.  If any step before the final rebuild — parsing, frame
location, DHT table resolution, block decoding, requantization, or scan
re-encoding (all of `compressPrep`, which never touches the file system
beyond reading the input) — raises an error, `compress` returns that error
and the file system is unchanged: the output path is only opened for
writing in the rebuild branch. -/
theorem compress_prep_error_no_write (input_path output_path : String) (quality : Int)
    (fs : List (String × List Nat)) (e : Err)
    (h : compressPrep input_path quality fs = .error e) :
    compress input_path output_path quality fs = (.error e, fs) := by
  unfold compress
  rw [h]

/-- Witness for C9: on an empty file system the parse step fails with
`FileNotFoundError` and no output file is created. -/
theorem compress_prep_error_no_write_witness :
    compress "missing.jpg" "out.jpg" 50 [] = (.error .fileNotFound, []) :=
  compress_prep_error_no_write "missing.jpg" "out.jpg" 50 [] .fileNotFound rfl

end JpegTranscoder
